import Mathlib

/-!
Verification development for the tag-abstraction layer in
src/libs/common/mediafile.py.  Python strings are modelled as lists of
characters, Python byte strings as lists of naturals below 256, and Python
floats are idealised as rational numbers (exact arithmetic); machine
floating point is never load-bearing for the properties checked here.
-/

set_option maxHeartbeats 1000000

namespace Spec2Proof

/-! ### Character and digit utilities -/

def isAsciiDigit (c : Char) : Bool := 48 ≤ c.toNat && c.toNat ≤ 57

def charDigitVal (c : Char) : Nat := c.toNat - 48

/-- Numeric value of a decimal digit string, most significant digit first. -/
def charsVal (cs : List Char) : Nat :=
  cs.foldl (fun a c => 10 * a + charDigitVal c) 0

/-- Decimal rendering of a natural number (Python str on a nonnegative int). -/
def natToChars (n : Nat) : List Char :=
  if n = 0 then ['0'] else ((Nat.digits 10 n).map Nat.digitChar).reverse

/-- Decimal rendering of an integer (Python str on an int). -/
def intToChars (n : Int) : List Char :=
  if n < 0 then '-' :: natToChars n.natAbs else natToChars n.natAbs

/-- The ASCII whitespace stripped by Python str.strip (the unicode space
    variants never occur in the values considered here). -/
def pyWhitespace (c : Char) : Bool :=
  c = ' ' || c = '\t' || c = '\n' || c = '\r' || c = '\x0b' || c = '\x0c'

/-- Python str.strip: drop leading and trailing whitespace. -/
def pyStripChars (cs : List Char) : List Char :=
  ((cs.dropWhile pyWhitespace).reverse.dropWhile pyWhitespace).reverse

/-- The text matched by re.match of sign?digits+ (the pattern used by the
    integer branch of _safe_cast) at the front of a string, or none when the
    pattern does not match there. -/
def signedDigitsMatch (cs : List Char) : Option (List Char) :=
  if cs.headD ' ' = '+' then
    let ds := cs.tail.takeWhile isAsciiDigit
    if ds.isEmpty then none else some ('+' :: ds)
  else if cs.headD ' ' = '-' then
    let ds := cs.tail.takeWhile isAsciiDigit
    if ds.isEmpty then none else some ('-' :: ds)
  else
    let ds := cs.takeWhile isAsciiDigit
    if ds.isEmpty then none else some ds

/-- Python int() applied to a text of shape sign?digits+. -/
def pyIntOfMatched (cs : List Char) : Int :=
  if cs.headD ' ' = '+' then (charsVal cs.tail : Int)
  else if cs.headD ' ' = '-' then -(charsVal cs.tail : Int)
  else (charsVal cs : Int)

/-- The integer produced by the string branch of _safe_cast for out_type int:
    int of the front match of sign?digits+ on the stripped text, 0 otherwise. -/
def pyLeadingInt (cs : List Char) : Int :=
  match signedDigitsMatch (pyStripChars cs) with
  | some m => pyIntOfMatched m
  | none => 0

/-- The body (after the optional sign) of the float pattern of _safe_cast:
    digits+ dot? digits* as first alternative, else digits* dot digits+. -/
def floatMatchVal (cs : List Char) : Option ℚ :=
  let ip := cs.takeWhile isAsciiDigit
  let rest := cs.dropWhile isAsciiDigit
  if ip.isEmpty then
    if rest.headD ' ' = '.' then
      let fp := rest.tail.takeWhile isAsciiDigit
      if fp.isEmpty then none
      else some ((charsVal fp : ℚ) / (10 : ℚ) ^ fp.length)
    else none
  else
    if rest.headD ' ' = '.' then
      let fp := rest.tail.takeWhile isAsciiDigit
      some ((charsVal ip : ℚ) + (charsVal fp : ℚ) / (10 : ℚ) ^ fp.length)
    else some ((charsVal ip : ℚ))

/-- The float produced by the string branch of _safe_cast for out_type float:
    the front match of the signed decimal pattern on the stripped text,
    0.0 when it does not match. -/
def pyLeadingFloat (cs : List Char) : ℚ :=
  let t := pyStripChars cs
  if t.headD ' ' = '+' then (floatMatchVal t.tail).getD 0
  else if t.headD ' ' = '-' then
    match floatMatchVal t.tail with
    | some q => -q
    | none => 0
  else (floatMatchVal t).getD 0

/-- Python int() on a whole string: optional sign and a nonempty digit run,
    surrounded only by whitespace; none models the ValueError. -/
def pyIntOfChars (cs : List Char) : Option Int :=
  let t := pyStripChars cs
  let signed := t.headD ' ' = '+' || t.headD ' ' = '-'
  let ds := if signed then t.tail else t
  if !ds.isEmpty && ds.all isAsciiDigit then
    if t.headD ' ' = '-' then some (-(charsVal ds : Int)) else some (charsVal ds)
  else none

/-- Splitting on single-character separators, as done by re.split of a
    character class and by str.split with one separator: no collapsing of
    adjacent separators, and the empty text yields one empty piece. -/
def splitPred (p : Char → Bool) : List Char → List (List Char)
  | [] => [[]]
  | c :: rest =>
    if p c then [] :: splitPred p rest
    else
      match splitPred p rest with
      | [] => [[c]]
      | g :: gs => (c :: g) :: gs

/-- Python sep.join. -/
def joinChars (sep : List Char) : List (List Char) → List Char
  | [] => []
  | [g] => g
  | g :: g2 :: gs => g ++ sep ++ joinChars sep (g2 :: gs)

/-- Python int() truncation toward zero, on the rational idealisation of a
    float. -/
def ratTrunc (q : ℚ) : Int := if q < 0 then -((-q).floor) else q.floor

/-! ### The Python value universe of the tag layer -/

/-- Model of bytes.decode with the utf-8 codec and errors ignore: well-formed
    sequences decode normally and a byte that does not begin a well-formed
    sequence is dropped.  The source delegates this to the Python codec
    machinery, which is external to the repository. -/
def decodeUtf8IgnoreAux : Nat → List Nat → List Char
  | 0, _ => []
  | _, [] => []
  | fuel + 1, b :: rest =>
    if b < 0x80 then Char.ofNat b :: decodeUtf8IgnoreAux fuel rest
    else if 0xc2 ≤ b && b ≤ 0xdf then
      match rest with
      | b2 :: r2 =>
        if 0x80 ≤ b2 && b2 ≤ 0xbf then
          Char.ofNat ((b - 0xc0) * 64 + (b2 - 0x80)) :: decodeUtf8IgnoreAux fuel r2
        else decodeUtf8IgnoreAux fuel rest
      | [] => []
    else if 0xe0 ≤ b && b ≤ 0xef then
      match rest with
      | b2 :: b3 :: r3 =>
        if (0x80 ≤ b2 && b2 ≤ 0xbf) && (0x80 ≤ b3 && b3 ≤ 0xbf) then
          Char.ofNat ((b - 0xe0) * 4096 + (b2 - 0x80) * 64 + (b3 - 0x80)) ::
            decodeUtf8IgnoreAux fuel r3
        else decodeUtf8IgnoreAux fuel rest
      | _ => decodeUtf8IgnoreAux fuel rest
    else if 0xf0 ≤ b && b ≤ 0xf4 then
      match rest with
      | b2 :: b3 :: b4 :: r4 =>
        if ((0x80 ≤ b2 && b2 ≤ 0xbf) && (0x80 ≤ b3 && b3 ≤ 0xbf)) &&
            (0x80 ≤ b4 && b4 ≤ 0xbf) then
          Char.ofNat ((b - 0xf0) * 262144 + (b2 - 0x80) * 4096 +
            (b3 - 0x80) * 64 + (b4 - 0x80)) :: decodeUtf8IgnoreAux fuel r4
        else decodeUtf8IgnoreAux fuel rest
      | _ => decodeUtf8IgnoreAux fuel rest
    else decodeUtf8IgnoreAux fuel rest

def decodeUtf8Ignore (bs : List Nat) : List Char :=
  decodeUtf8IgnoreAux bs.length bs

/-- The Python values that flow through the tag layer. -/
inductive PyVal where
  | vnone
  | vint (n : Int)
  | vfloat (q : ℚ)
  | vbool (b : Bool)
  | vstr (s : List Char)
  | vbytes (bs : List Nat)
  deriving DecidableEq

/-- Python truthiness for the modelled values. -/
def pyTruthy : PyVal → Bool
  | .vnone => false
  | .vint n => n != 0
  | .vfloat q => q != 0
  | .vbool b => b
  | .vstr s => !s.isEmpty
  | .vbytes bs => !bs.isEmpty

/-- Python str() of a value.  The rendering of a non-integral float differs
    from CPython shortest-repr formatting; no theorem below exercises it. -/
def pyStrChars : PyVal → List Char
  | .vnone => ['N', 'o', 'n', 'e']
  | .vint n => intToChars n
  | .vfloat q =>
    if q.den = 1 then intToChars q.num ++ ['.', '0']
    else intToChars q.num ++ '/' :: natToChars q.den
  | .vbool b => if b then ['T', 'r', 'u', 'e'] else ['F', 'a', 'l', 's', 'e']
  | .vstr s => s
  | .vbytes bs => 'b' :: (decodeUtf8Ignore bs)

/-- Python int() applied to a non-string value (no exception cases arise for
    the value shapes reaching it below). -/
def pyIntOfVal : PyVal → Option Int
  | .vint n => some n
  | .vbool b => some (if b then 1 else 0)
  | .vfloat q => some (ratTrunc q)
  | .vstr s => pyIntOfChars s
  | .vbytes bs => pyIntOfChars (bs.map Char.ofNat)
  | .vnone => none

/-- The out_type of a MediaField: int, bool, str, float, or any other type,
    which _safe_cast passes through unchanged. -/
inductive PyType where
  | tint | tbool | tstr | tfloat | tother
  deriving DecidableEq

/-- Embedding of _safe_cast (src/libs/common/mediafile.py lines 181-238).
    A None value maps to None; the integer branch truncates numbers and
    reads the front signed-digit match of a (stripped) string with fallback
    0; the bool branch is bool of int of the value with False on ValueError;
    the str branch decodes bytes and applies str otherwise; the float branch
    mirrors the int branch with the decimal-fraction pattern; any other
    out_type passes the value through. -/
def pySafeCast (out : PyType) (val : PyVal) : PyVal :=
  match val with
  | .vnone => .vnone
  | v =>
    match out with
    | .tint =>
      match v with
      | .vint n => .vint n
      | .vbool b => .vint (if b then 1 else 0)
      | .vfloat q => .vint (ratTrunc q)
      | .vbytes bs => .vint (pyLeadingInt (decodeUtf8Ignore bs))
      | .vstr s => .vint (pyLeadingInt s)
      | .vnone => .vnone
    | .tbool =>
      match pyIntOfVal v with
      | some n => .vbool (n != 0)
      | none => .vbool false
    | .tstr =>
      match v with
      | .vbytes bs => .vstr (decodeUtf8Ignore bs)
      | .vstr s => .vstr s
      | w => .vstr (pyStrChars w)
    | .tfloat =>
      match v with
      | .vint n => .vfloat (n : ℚ)
      | .vbool b => .vfloat (if b then 1 else 0)
      | .vfloat q => .vfloat q
      | .vbytes bs => .vfloat (pyLeadingFloat (decodeUtf8Ignore bs))
      | .vstr s => .vfloat (pyLeadingFloat s)
      | .vnone => .vnone
    | .tother => v

/-- Modelled from the spec wording (claim C10): the leading optionally-signed
    decimal integer of the stripped text, or 0 when the stripped text has no
    leading integer. -/
def specLeadingInt (cs : List Char) : Int :=
  let t := pyStripChars cs
  let sign : Int := if t.headD ' ' = '-' then -1 else 1
  let body := if t.headD ' ' = '-' || t.headD ' ' = '+' then t.tail else t
  let ds := body.takeWhile isAsciiDigit
  if ds.isEmpty then 0 else sign * (charsVal ds : Int)

/-! ### The tag set and storage strategies -/

/-- The in-memory tag set of one open container: an association of keys with
    lists of raw values, the view of the Mutagen file object used by the
    storage styles (mutagen_file of key is a list of raw values; ID3 frames
    keyed by frame id with their text list are modelled the same way). -/
def TagSet : Type := List (List Char × List PyVal)

def tagLookup (k : List Char) (t : TagSet) : Option (List PyVal) :=
  match t.find? (fun e => e.1 == k) with
  | some e => some e.2
  | none => none

def tagStore (k : List Char) (vs : List PyVal) : TagSet → TagSet
  | [] => [(k, vs)]
  | e :: rest => if e.1 == k then (k, vs) :: rest else e :: tagStore k vs rest

def tagDelete (k : List Char) (t : TagSet) : TagSet :=
  t.filter (fun e => !(e.1 == k))

/-- Python round: round half to even, on the rational idealisation. -/
def pyRoundQ (q : ℚ) : Int :=
  if q - Rat.floor q < 1 / 2 then Rat.floor q
  else if 1 / 2 < q - Rat.floor q then Rat.floor q + 1
  else if Rat.floor q % 2 = 0 then Rat.floor q else Rat.floor q + 1

def padLeftZeros (w : Nat) (cs : List Char) : List Char :=
  List.replicate (w - cs.length) '0' ++ cs

/-- Python format with a 0Nd conversion: zero-padded fixed minimum width. -/
def fmtZeroPad (width : Nat) (n : Int) : List Char :=
  if n < 0 then '-' :: padLeftZeros (width - 1) (natToChars n.natAbs)
  else padLeftZeros width (natToChars n.natAbs)

/-- Python format with a .Nf conversion on a float: fixed N decimal places
    (rounding half to even on the rational idealisation). -/
def formatFloat (places : Nat) (q : ℚ) : List Char :=
  let scaled := pyRoundQ (q * (10 : ℚ) ^ places)
  let ip := scaled.natAbs / 10 ^ places
  let fr := scaled.natAbs % 10 ^ places
  (if scaled < 0 then ['-'] else []) ++ natToChars ip ++
    (if places = 0 then [] else '.' :: padLeftZeros places (natToChars fr))

/-- The constructor parameters of the base StorageStyle (key, as_type,
    suffix, float_places, read_only). -/
structure StorageParams where
  key : List Char
  asType : PyType := .tstr
  suffix : Option (List Char) := none
  floatPlaces : Nat := 2
  readOnly : Bool := false

/-- StorageStyle.fetch: first element of the value list at the key, None on
    KeyError or IndexError. -/
def ssFetch (p : StorageParams) (t : TagSet) : PyVal :=
  match tagLookup p.key t with
  | some (v :: _) => v
  | _ => .vnone

/-- StorageStyle.deserialize: strip the configured suffix from a string
    value. -/
def ssDeserialize (p : StorageParams) (v : PyVal) : PyVal :=
  match p.suffix, v with
  | some suf, .vstr s =>
    if !suf.isEmpty && suf.isSuffixOf s then .vstr (s.take (s.length - suf.length))
    else .vstr s
  | _, w => w

def ssGet (p : StorageParams) (t : TagSet) : PyVal :=
  ssDeserialize p (ssFetch p t)

/-- The Python as_type conversion applied by serialize when as_type is not a
    string type.  Conversion failures raise in Python; no theorem below
    exercises a failing conversion, so they are mapped to None here. -/
def pyConvert : PyType → PyVal → PyVal
  | .tint, w =>
    match pyIntOfVal w with
    | some n => .vint n
    | none => .vnone
  | .tbool, w => .vbool (pyTruthy w)
  | .tfloat, w =>
    match w with
    | .vint n => .vfloat (n : ℚ)
    | .vfloat q => .vfloat q
    | .vbool b => .vfloat (if b then 1 else 0)
    | u => u
  | .tstr, w => .vstr (pyStrChars w)
  | .tother, w => w

/-- StorageStyle.serialize: floats rendered with float_places digits when the
    style stores text, bools as 1 or 0, bytes decoded, anything else through
    str; for a non-text as_type the Python type conversion is applied; the
    configured suffix is appended at the end. -/
def ssSerialize (p : StorageParams) (v : PyVal) : PyVal :=
  let base :=
    match v, p.asType with
    | .vfloat q, .tstr => PyVal.vstr (formatFloat p.floatPlaces q)
    | .vbool b, .tstr => PyVal.vstr (if b then ['1'] else ['0'])
    | .vbytes bs, .tstr => PyVal.vstr (decodeUtf8Ignore bs)
    | .vstr s, .tstr => PyVal.vstr s
    | w, .tstr => PyVal.vstr (pyStrChars w)
    | w, ty => pyConvert ty w
  match p.suffix, base with
  | some suf, .vstr s => if suf.isEmpty then .vstr s else .vstr (s ++ suf)
  | _, b => b

def ssStore (p : StorageParams) (v : PyVal) (t : TagSet) : TagSet :=
  tagStore p.key [v] t

def ssSet (p : StorageParams) (v : PyVal) (t : TagSet) : TagSet :=
  ssStore p (ssSerialize p v) t

/-- StorageStyle.delete: remove the key when present. -/
def ssDelete (p : StorageParams) (t : TagSet) : TagSet :=
  if (tagLookup p.key t).isSome then tagDelete p.key t else t

/-- ListStorageStyle.fetch: the whole value list, None on KeyError. -/
def ssFetchList (p : StorageParams) (t : TagSet) : Option (List PyVal) :=
  tagLookup p.key t

def ssGetList (p : StorageParams) (t : TagSet) : Option (List PyVal) :=
  (ssFetchList p t).map (List.map (ssDeserialize p))

def ssSetList (p : StorageParams) (ovs : Option (List PyVal)) (t : TagSet) : TagSet :=
  match ovs with
  | none => ssDelete p t
  | some vs => tagStore p.key (vs.map (ssSerialize p)) t

/-- One storage strategy as the field descriptor layer sees it: the formats
    it applies to, the read_only flag, and its operations on the tag set. -/
structure Style where
  formats : List (List Char)
  readOnly : Bool
  sget : TagSet → PyVal
  sset : PyVal → TagSet → TagSet
  sdel : TagSet → TagSet
  sgetList : TagSet → Option (List PyVal)
  ssetList : Option (List PyVal) → TagSet → TagSet

/-- The class-level formats list of the base StorageStyle. -/
def baseFormats : List (List Char) :=
  (["FLAC", "OggOpus", "OggTheora", "OggSpeex", "OggVorbis", "OggFlac",
    "APEv2File", "WavPack", "Musepack", "MonkeysAudio"] : List String).map
    String.data

/-- The class-level formats list of MP3StorageStyle. -/
def mp3Formats : List (List Char) :=
  (["MP3", "AIFF", "DSF", "WAVE"] : List String).map String.data

/-- A base StorageStyle instance packaged as a strategy record. -/
def baseStyle (p : StorageParams) : Style :=
  ⟨baseFormats, p.readOnly, ssGet p, ssSet p, ssDelete p, ssGetList p,
    ssSetList p⟩

/-! ### The field descriptor layer -/

/-- MediaField.styles: the styles whose formats contain the name of the
    Mutagen class of the open file. -/
def applicableStyles (styles : List Style) (fmt : List Char) : List Style :=
  styles.filter (fun s => s.formats.contains fmt)

/-- The loop of MediaField.__get__: out starts as None and is overwritten by
    each style in turn; the loop stops at the first truthy value; when no
    value is truthy the final out (the last fetched value) remains. -/
def fieldReadLoop (t : TagSet) : List Style → PyVal → PyVal
  | [], out => out
  | s :: rest, _ =>
    let v := s.sget t
    if pyTruthy v then v else fieldReadLoop t rest v

/-- MediaField.__get__ (src/libs/common/mediafile.py lines 1249-1255). -/
def fieldGet (outType : PyType) (styles : List Style) (fmt : List Char)
    (t : TagSet) : PyVal :=
  pySafeCast outType (fieldReadLoop t (applicableStyles styles fmt) .vnone)

/-- MediaField._none_value: the zero value of the declared type (None for
    any other out_type, from the fall-through). -/
def noneValue : PyType → PyVal
  | .tint => .vint 0
  | .tfloat => .vfloat 0
  | .tbool => .vbool false
  | .tstr => .vstr []
  | .tother => .vnone

/-- MediaField.__set__: a None value is replaced by the type's none value,
    then every applicable non-read-only style is written. -/
def fieldSet (outType : PyType) (styles : List Style) (fmt : List Char)
    (v : PyVal) (t : TagSet) : TagSet :=
  let v2 := if v = .vnone then noneValue outType else v
  (applicableStyles styles fmt).foldl
    (fun ts s => if s.readOnly then ts else s.sset v2 ts) t

/-- MediaField.__delete__: every applicable style's delete runs (read_only
    does not block deletion). -/
def fieldDelete (styles : List Style) (fmt : List Char) (t : TagSet) : TagSet :=
  (applicableStyles styles fmt).foldl (fun ts s => s.sdel ts) t

/-- The loop of ListMediaField.__get__: the first style whose get_list is
    truthy (a non-empty list) wins; otherwise the loop falls through. -/
def listFieldReadLoop (t : TagSet) : List Style → Option (List PyVal)
  | [] => none
  | s :: rest =>
    match s.sgetList t with
    | some (v :: vs) => some (v :: vs)
    | _ => listFieldReadLoop t rest

/-- ListMediaField.__get__ (lines 1289-1294): the values of the winning
    style coerced elementwise, or None when no style yields any. -/
def listFieldGet (outType : PyType) (styles : List Style) (fmt : List Char)
    (t : TagSet) : Option (List PyVal) :=
  match listFieldReadLoop t (applicableStyles styles fmt) with
  | some vs => some (vs.map (pySafeCast outType))
  | none => none

/-! ### QNumberField -/

/-- QNumberField.__get__: the integer field value shifted right by the
    fraction bits; None stays None. -/
def qnumFieldGet (bits : Nat) (styles : List Style) (fmt : List Char)
    (t : TagSet) : Option ℚ :=
  match fieldGet .tint styles fmt t with
  | .vint n => some ((n : ℚ) / 2 ^ bits)
  | _ => none

/-- QNumberField.__set__: round(value times 2 to the fraction bits) stored
    through the integer field.  A None value reaches the multiplication
    before any None handling and raises TypeError, modelled as error. -/
def qnumFieldSet (bits : Nat) (styles : List Style) (fmt : List Char)
    (v : PyVal) (t : TagSet) : Except Unit TagSet :=
  match v with
  | .vfloat x => .ok (fieldSet .tint styles fmt (.vint (pyRoundQ (x * 2 ^ bits))) t)
  | .vint n => .ok (fieldSet .tint styles fmt (.vint (pyRoundQ ((n : ℚ) * 2 ^ bits))) t)
  | .vbool b =>
    .ok (fieldSet .tint styles fmt
      (.vint (pyRoundQ (((if b then 1 else 0) : ℚ) * 2 ^ bits))) t)
  | _ => .error ()

/-! ### MP3SlashPackStorageStyle -/

def isSlash (c : Char) : Bool := c = '/'

/-- The items of MP3SlashPackStorageStyle._fetch_unpacked before padding:
    the stored string split on slashes, or nothing when the slot is absent
    or falsy. -/
def slashItems (dataV : PyVal) : List PyVal :=
  if pyTruthy dataV then (splitPred isSlash (pyStrChars dataV)).map .vstr
  else []

/-- MP3SlashPackStorageStyle._fetch_unpacked: split the stored string on
    slashes and pad with None to length two. -/
def slashFetchUnpacked (key : List Char) (t : TagSet) : List PyVal :=
  slashItems (ssFetch ⟨key, .tstr, none, 2, false⟩ t) ++
    List.replicate
      (2 - (slashItems (ssFetch ⟨key, .tstr, none, 2, false⟩ t)).length)
      PyVal.vnone

/-- MP3SlashPackStorageStyle.get. -/
def slashGet (key : List Char) (pos : Nat) (t : TagSet) : PyVal :=
  (slashFetchUnpacked key t).getD pos .vnone

/-- The two fix-up statements of MP3SlashPackStorageStyle.set: a missing
    first element becomes the empty string, and the last element is dropped
    when the second is None. -/
def slashAdjust (items : List PyVal) : List PyVal :=
  let items1 := if items.getD 0 .vnone = .vnone then items.set 0 (.vstr []) else items
  if items1.getD 1 .vnone = .vnone then items1.dropLast else items1

/-- MP3SlashPackStorageStyle.set: place the value at its position, apply the
    fix-ups, join with a slash, and store. -/
def slashSet (key : List Char) (pos : Nat) (v : PyVal) (t : TagSet) : TagSet :=
  tagStore key
    [.vstr (joinChars ['/']
      ((slashAdjust ((slashFetchUnpacked key t).set pos v)).map pyStrChars))]
    t

/-- MP3SlashPackStorageStyle.delete: position zero deletes the whole slot,
    any other position writes None through set. -/
def slashDelete (key : List Char) (pos : Nat) (t : TagSet) : TagSet :=
  if pos = 0 then ssDelete ⟨key, .tstr, none, 2, false⟩ t
  else slashSet key pos .vnone t

/-! ### DateField -/

/-- A DateField: the styles holding the whole date string and the fallback
    styles of the legacy year-only field (always configured on the date
    field of the source). -/
structure DateFieldModel where
  dateStyles : List Style
  yearStyles : List Style

def isDateSep (c : Char) : Bool := c = '-' || c = '/'

def isTimeStart (c : Char) : Bool := c = 'T' || c = 't' || c = ' '

def itemTruthy : Option (List Char) → Bool
  | some cs => !cs.isEmpty
  | none => false

def optIntTruthy (o : Option Int) : Bool := o.getD 0 != 0

/-- The raw date components of _get_date_tuple: the fetched date string with
    a trailing time-of-day part stripped, split on hyphens and slashes (a
    non-string value yields no components). -/
def dateItemsOf (v : PyVal) : List (Option (List Char)) :=
  match v with
  | .vstr s =>
    (splitPred isDateSep (s.takeWhile (fun c => !isTimeStart c))).map some
  | _ => []

/-- Trim or pad the component list to exactly three entries. -/
def padThree (items : List (Option (List Char))) : List (Option (List Char)) :=
  items.take 3 ++ List.replicate (3 - (items.take 3).length) none

/-- Backfill a missing or empty leading year component from the legacy year
    field's value. -/
def backfillYear (yearV : PyVal) (items : List (Option (List Char))) :
    List (Option (List Char)) :=
  if itemTruthy (items.getD 0 none) then items
  else
    items.set 0
      (match yearV with
       | .vstr s => some s
       | _ => none)

/-- DateField._get_date_tuple (lines 1354-1384): fetch the date string,
    strip a trailing time part, split on hyphens and slashes, trim or pad to
    three components, backfill a missing year from the legacy year field,
    and convert each component with int (None where that raises). -/
def dateGetTuple (df : DateFieldModel) (fmt : List Char) (t : TagSet) :
    List (Option Int) :=
  (backfillYear (fieldGet .tstr df.yearStyles fmt t)
      (padThree (dateItemsOf (fieldGet .tstr df.dateStyles fmt t)))).map
    (fun o => o.bind pyIntOfChars)

/-- The component strings built by _set_date_tuple: the year always, the
    month when truthy, the day when month and day are both truthy. -/
def dateComponents (y : Int) (month day : Option Int) : List (List Char) :=
  let date := [fmtZeroPad 4 y]
  let date :=
    if optIntTruthy month then date ++ [fmtZeroPad 2 (month.getD 0)] else date
  if optIntTruthy month && optIntTruthy day then
    date ++ [fmtZeroPad 2 (day.getD 0)]
  else date

/-- DateField._set_date_tuple (lines 1386-1404): nothing without a year (the
    field is deleted instead); otherwise the supplied components are
    serialized as a hyphen-joined string of 04d and 02d fields and written
    through the date styles, and the year is always written through the
    legacy year field. -/
def dateSetTuple (df : DateFieldModel) (fmt : List Char)
    (year month day : Option Int) (t : TagSet) : TagSet :=
  match year with
  | none => fieldDelete df.yearStyles fmt (fieldDelete df.dateStyles fmt t)
  | some y =>
    fieldSet .tstr df.yearStyles fmt (.vint y)
      (fieldSet .tstr df.dateStyles fmt
        (.vstr (joinChars ['-'] (dateComponents y month day))) t)

/-- A DateField over one primary slot and one legacy year slot, as base
    storage styles. -/
def singleDateField (kp ky : List Char) : DateFieldModel :=
  ⟨[baseStyle ⟨kp, .tstr, none, 2, false⟩],
   [baseStyle ⟨ky, .tstr, none, 2, false⟩]⟩

/-- DateItemField.__get__: one position of the parent's date tuple. -/
def dateItemGet (df : DateFieldModel) (pos : Nat) (fmt : List Char)
    (t : TagSet) : Option Int :=
  (dateGetTuple df fmt t).getD pos none

/-- DateItemField.__set__: read the parent tuple, replace one position, and
    write the tuple back. -/
def dateItemSet (df : DateFieldModel) (pos : Nat) (v : Option Int)
    (fmt : List Char) (t : TagSet) : TagSet :=
  let items := (dateGetTuple df fmt t).set pos v
  dateSetTuple df fmt (items.getD 0 none) (items.getD 1 none) (items.getD 2 none) t

/-! ### Embedded images and the ASF picture layout -/

/-- Python list indexing into the 21-entry ImageType enumeration, as done by
    the Image constructor: an out-of-range index falls back to other (0) via
    IndexError, and a negative in-range index counts from the end. -/
def normImageType (i : Int) : Nat :=
  if 0 ≤ i ∧ i < 21 then i.toNat
  else if -21 ≤ i ∧ i < 0 then (21 + i).toNat
  else 0

/-- The Image record: payload bytes, optional description, optional
    normalised type index.  The derived MIME type is computed by an external
    payload-sniffing library and is not part of the model. -/
structure ImageModel where
  data : List Nat
  desc : Option (List Char)
  typeIdx : Option Nat
  deriving DecidableEq

/-- The Image constructor with an integer type tag. -/
def mkImage (d : List Nat) (desc : Option (List Char)) (ty : Option Int) :
    ImageModel :=
  ⟨d, desc, ty.map normImageType⟩

/-- Image.type_index: other (0) when no type is set. -/
def imageTypeIndex (img : ImageModel) : Nat := img.typeIdx.getD 0

/-- UTF-16 code units of one scalar value (one unit below 0x10000, else a
    surrogate pair). -/
def utf16Units (c : Char) : List Nat :=
  let v := c.toNat
  if v < 0x10000 then [v]
  else [0xd800 + (v - 0x10000) / 0x400, 0xdc00 + (v - 0x10000) % 0x400]

def unitBytes (u : Nat) : List Nat := [u % 256, u / 256 % 256]

/-- Python str.encode with the utf-16-le codec. -/
def encodeUtf16le (cs : List Char) : List Nat :=
  (cs.map (fun c => ((utf16Units c).map unitBytes).flatten)).flatten

/-- Pair up bytes into little-endian 16-bit units; an odd tail is a codec
    error. -/
def bytesToUnits : List Nat → Option (List Nat)
  | [] => some []
  | b0 :: b1 :: rest => (bytesToUnits rest).map (fun us => (b0 + 256 * b1) :: us)
  | _ => none

/-- Combine units into scalar values; lone or reversed surrogates are codec
    errors. -/
def unitsToChars : List Nat → Option (List Char)
  | [] => some []
  | u :: rest =>
    if u < 0xd800 || (0xe000 ≤ u && u < 0x10000) then
      (unitsToChars rest).map (fun cs => Char.ofNat u :: cs)
    else if 0xd800 ≤ u && u < 0xdc00 then
      match rest with
      | u2 :: rest2 =>
        if 0xdc00 ≤ u2 && u2 < 0xe000 then
          (unitsToChars rest2).map (fun cs =>
            Char.ofNat (0x10000 + (u - 0xd800) * 0x400 + (u2 - 0xdc00)) :: cs)
        else none
      | [] => none
    else none

/-- Python bytes.decode with the utf-16-le codec (none is the raised
    UnicodeDecodeError). -/
def decodeUtf16le (bs : List Nat) : Option (List Char) :=
  (bytesToUnits bs).bind unitsToChars

/-- Little-endian bytes of an unsigned 32-bit value. -/
def leBytes4 (n : Nat) : List Nat :=
  [n % 256, n / 256 % 256, n / 65536 % 256, n / 16777216 % 256]

/-- struct.pack of b (signed char) and i (signed 32-bit little-endian):
    none models the struct.error on out-of-range values. -/
def packTypeSize (ty : Int) (size : Nat) : Option (List Nat) :=
  if -128 ≤ ty ∧ ty ≤ 127 ∧ (size : Int) < 2 ^ 31 then
    some ((ty % 256).toNat :: leBytes4 size)
  else none

def sbyteOfNat (b : Nat) : Int := if b < 128 then (b : Int) else (b : Int) - 256

def sint32OfNat (n : Nat) : Int :=
  if (n : Int) < 2 ^ 31 then (n : Int) else (n : Int) - 2 ^ 32

/-- Python list slicing l of a colon b with int indices and unit step. -/
def pySlice {α : Type} (l : List α) (a b : Int) : List α :=
  let n : Int := l.length
  let norm : Int → Nat := fun i => (if i < 0 then max 0 (i + n) else min i n).toNat
  (l.take (norm b)).drop (norm a)

/-- The while loop of _unpack_asf_image reading two-byte slices until a
    double null: the bytes before the terminator and the remainder after
    it.  None models running off the end of the data, on which the Python
    loop never terminates (the empty slice never equals the terminator). -/
def scanDoubleNull : List Nat → Option (List Nat × List Nat)
  | 0 :: 0 :: rest => some ([], rest)
  | b0 :: b1 :: rest => (scanDoubleNull rest).map (fun pr => (b0 :: b1 :: pr.1, pr.2))
  | _ => none

/-- _unpack_asf_image (lines 243-266): signed-byte type code, little-endian
    signed 32-bit payload length, UTF-16LE MIME and description runs each
    ended by a double null, then the size-bounded payload slice.  None
    models the exceptions this untrusted helper can raise (short header,
    undecodable UTF-16) and the non-terminating scan on a missing
    terminator. -/
def unpackAsfImage (data : List Nat) :
    Option (List Char × List Nat × Int × List Char) :=
  match data with
  | b0 :: b1 :: b2 :: b3 :: b4 :: rest =>
    let ty := sbyteOfNat b0
    let size := sint32OfNat (b1 + 256 * b2 + 65536 * b3 + 16777216 * b4)
    match scanDoubleNull rest with
    | none => none
    | some (mimeBytes, rest1) =>
      match scanDoubleNull rest1 with
      | none => none
      | some (descBytes, _) =>
        match decodeUtf16le mimeBytes, decodeUtf16le descBytes with
        | some mime, some desc =>
          let pos : Int := 5 + mimeBytes.length + 2 + descBytes.length + 2
          some (mime, pySlice data pos (pos + size), ty, desc)
        | _, _ => none
  | _ => none

/-- _pack_asf_image (lines 269-276): header, UTF-16LE MIME and double null,
    UTF-16LE description and double null, then the raw payload. -/
def packAsfImage (mime : List Char) (data : List Nat) (ty : Int)
    (desc : List Char) : Option (List Nat) :=
  (packTypeSize ty data.length).map (fun hdr =>
    hdr ++ encodeUtf16le mime ++ [0, 0] ++ encodeUtf16le desc ++ [0, 0] ++ data)

/-- ASFImageStorageStyle.deserialize: unpack one stored record into an
    Image; an exception propagates (none). -/
def asfImageDeserialize (raw : List Nat) : Option ImageModel :=
  (unpackAsfImage raw).map (fun r => mkImage r.2.1 (some r.2.2.2) (some r.2.2.1))

/-- The list read of ASFImageStorageStyle (get_list deserializes every
    stored record in a comprehension): an exception in any single record
    aborts the whole read. -/
def asfImageGetList (raws : List (List Nat)) : Option (List ImageModel) :=
  raws.mapM asfImageDeserialize

/-! ### Derived audio properties of the container facade -/

/-- The audio-info structure reported by the external codec library; a
    missing field models an absent attribute (hasattr false). -/
structure AudioInfo where
  length : Option ℚ := none
  sampleRate : Option Int := none
  bitsPerSample : Option Int := none
  channels : Option Int := none
  bitrate : Option Int := none
  bitrateMode : Option Int := none
  encoderInfo : Option (List Char) := none
  encoderSettings : Option (List Char) := none

/-- The open container: parsed audio info, on-disk size and detected type
    tag. -/
structure MFile where
  info : AudioInfo
  filesize : ℚ
  ftype : List Char

/-- MediaFile.length (lines 2306-2309): reads info.length with no hasattr
    guard, so a missing attribute raises AttributeError (error). -/
def mfLength (m : MFile) : Except Unit ℚ :=
  match m.info.length with
  | some l => .ok l
  | none => .error ()

/-- MediaFile.samplerate: guarded attribute read, 48000 for opus, else 0. -/
def mfSamplerate (m : MFile) : Int :=
  match m.info.sampleRate with
  | some v => v
  | none => if m.ftype == ("opus").data then 48000 else 0

/-- MediaFile.bitdepth: guarded attribute read with 0 fallback. -/
def mfBitdepth (m : MFile) : Int := m.info.bitsPerSample.getD 0

/-- MediaFile.channels: guarded attribute read with 0 fallback. -/
def mfChannels (m : MFile) : Int := m.info.channels.getD 0

/-- The fallback branch of MediaFile.bitrate: 0 on a falsy duration, else
    the truncated quotient of the size in bits by the duration; reading the
    duration of an info structure without one raises (error). -/
def mfBitrateFallback (m : MFile) : Except Unit Int :=
  match m.info.length with
  | none => .error ()
  | some l => if l = 0 then .ok 0 else .ok (ratTrunc (m.filesize * 8 / l))

/-- MediaFile.bitrate (lines 2338-2356): an explicitly reported nonzero
    bitrate wins; otherwise it is computed from file size and duration. -/
def mfBitrate (m : MFile) : Except Unit Int :=
  match m.info.bitrate with
  | some b => if b ≠ 0 then .ok b else mfBitrateFallback m
  | none => mfBitrateFallback m

/-- MediaFile.bitrate_mode: the CBR, VBR and ABR values of the external
    BitrateMode enumeration map to their names, anything else to the empty
    string. -/
def mfBitrateMode (m : MFile) : List Char :=
  match m.info.bitrateMode with
  | some mo =>
    if mo = 1 then ("CBR").data
    else if mo = 2 then ("VBR").data
    else if mo = 3 then ("ABR").data
    else []
  | none => []

/-- MediaFile.encoder_info: guarded attribute read with empty fallback. -/
def mfEncoderInfo (m : MFile) : List Char := m.info.encoderInfo.getD []

/-- MediaFile.encoder_settings: guarded attribute read with empty
    fallback. -/
def mfEncoderSettings (m : MFile) : List Char := m.info.encoderSettings.getD []

/-- The human-readable TYPES table keyed by the detected type tag. -/
def typesMap : List (List Char × List Char) :=
  ([("mp3", "MP3"), ("aac", "AAC"), ("alac", "ALAC"), ("ogg", "OGG"),
    ("opus", "Opus"), ("flac", "FLAC"), ("ape", "APE"), ("wv", "WavPack"),
    ("mpc", "Musepack"), ("asf", "Windows Media"), ("aiff", "AIFF"),
    ("dsf", "DSD Stream File"), ("wav", "WAVE")] :
    List (String × String)).map (fun pr => (pr.1.data, pr.2.data))

/-- MediaFile.format: the TYPES entry of the detected type (a KeyError for a
    tag outside the table, which the constructor never produces). -/
def mfFormat (m : MFile) : Except Unit (List Char) :=
  match typesMap.find? (fun e => e.1 == m.ftype) with
  | some e => .ok e.2
  | none => .error ()

/-! ### The Sound Check loudness codec

The source computes with Python floats and transcendental functions; the
embedding idealises them as real numbers.  The ASCII-hex framing (ten
space-prefixed 8-digit uppercase hex fields, parsed back by decode as ten
big-endian 32-bit integers) is a bijection on the in-range tuples produced
by encode and is abstracted away: encode is modelled down to the packed
integer tuple and decode from the parsed tuple. -/

noncomputable section

/-- Ten raised to a real power. -/
def pow10 (x : ℝ) : ℝ := (10 : ℝ) ^ x

/-- The base-ten logarithm. -/
def log10 (x : ℝ) : ℝ := Real.logb 10 x

/-- Python round on the real idealisation of a float: half to even. -/
def pyRoundR (x : ℝ) : ℤ :=
  if x - ⌊x⌋ < 1 / 2 then ⌊x⌋
  else if 1 / 2 < x - ⌊x⌋ then ⌊x⌋ + 1
  else if ⌊x⌋ % 2 = 0 then ⌊x⌋ else ⌊x⌋ + 1

/-- Python int() on a real: truncation toward zero. -/
def truncR (x : ℝ) : ℤ := if x < 0 then -⌊-x⌋ else ⌊x⌋

/-- Python round(x, n): rounding to n decimal places. -/
def pyRoundAt (n : Nat) (x : ℝ) : ℝ := (pyRoundR (x * 10 ^ n) : ℝ) / 10 ^ n

/-- The `or 1` applied to the clamped magnitudes: zero becomes one. -/
def orOne (n : Int) : Int := if n = 0 then 1 else n

/-- _sc_encode (lines 322-343) down to the ten packed integers: the peak is
    rescaled to 16-bit full scale and truncated by int(); the two reference
    magnitudes come from the gain ratio against the 1000 and 2500
    references, clamped above by 65534 and below by the `or 1`; the unused
    slots are zero. -/
def scEncode (gain peak : ℝ) : List Int :=
  let peakS := peak * 32768
  let g1 := orOne (min (pyRoundR (pow10 (gain / (-10)) * 1000)) 65534)
  let g2 := orOne (min (pyRoundR (pow10 (gain / (-10)) * 2500)) 65534)
  [g1, g1, g2, g2, 0, 0, truncR peakS, truncR peakS, 0, 0]

/-- _sc_decode (lines 281-319) from the parsed ten-integer tuple (the hex
    parsing, whose failure yields the (0, 0) default upstream of this, is
    abstracted away): the gain is recovered from the larger of the first two
    magnitudes against the 1000 reference when that is positive, the peak
    from the larger of slots six and seven against 16-bit full scale; the
    results are rounded to two and six decimal places. -/
def scDecode (vals : List Int) : ℝ × ℝ :=
  let maxgain := max (vals.getD 0 0) (vals.getD 1 0)
  let gain : ℝ :=
    if 0 < maxgain then log10 ((maxgain : ℝ) / 1000) * (-10) else 0
  let peak : ℝ := ((max (vals.getD 6 0) (vals.getD 7 0) : Int) : ℝ) / 32768
  (pyRoundAt 2 gain, pyRoundAt 6 peak)

end

/-! ### Helper lemmas: characters, digits and decimal parsing -/

theorem char_ne_of_toNat_ne {c d : Char} (h : c.toNat ≠ d.toNat) : c ≠ d :=
  fun e => h (by rw [e])

theorem digit_ne (c : Char) (h : isAsciiDigit c = true) (d : Char)
    (hd : d.toNat < 48 ∨ 57 < d.toNat) : c ≠ d := by
  have hb : 48 ≤ c.toNat ∧ c.toNat ≤ 57 := by simpa [isAsciiDigit] using h
  exact char_ne_of_toNat_ne (by omega)

theorem pyWhitespace_of_digit (c : Char) (h : isAsciiDigit c = true) :
    pyWhitespace c = false := by
  simp only [pyWhitespace, Bool.or_eq_false_iff, decide_eq_false_iff_not]
  refine ⟨⟨⟨⟨⟨?_, ?_⟩, ?_⟩, ?_⟩, ?_⟩, ?_⟩ <;>
    exact digit_ne c h _ (by decide)

theorem charDigitVal_digitChar (d : Nat) (h : d < 10) :
    charDigitVal (Nat.digitChar d) = d := by
  interval_cases d <;> rfl

theorem isAsciiDigit_digitChar (d : Nat) (h : d < 10) :
    isAsciiDigit (Nat.digitChar d) = true := by
  interval_cases d <;> rfl

theorem charsVal_concat (xs : List Char) (c : Char) :
    charsVal (xs ++ [c]) = 10 * charsVal xs + charDigitVal c := by
  simp [charsVal, List.foldl_append]

theorem charsVal_rev_digits (n : Nat) :
    charsVal (((Nat.digits 10 n).map Nat.digitChar).reverse) = n := by
  induction n using Nat.strong_induction_on with
  | _ n ih =>
    rcases Nat.eq_zero_or_pos n with h0 | hp
    · subst h0; simp [charsVal]
    · rw [Nat.digits_def' (by norm_num : 1 < 10) hp]
      simp only [List.map_cons, List.reverse_cons]
      rw [charsVal_concat, ih (n / 10) (Nat.div_lt_self hp (by norm_num)),
        charDigitVal_digitChar _ (Nat.mod_lt n (by norm_num))]
      omega

theorem charsVal_natToChars (n : Nat) : charsVal (natToChars n) = n := by
  unfold natToChars
  split
  · simp [charsVal, charDigitVal]; omega
  · exact charsVal_rev_digits n

theorem natToChars_all_digits (n : Nat) :
    ∀ c ∈ natToChars n, isAsciiDigit c = true := by
  intro c hc
  unfold natToChars at hc
  split at hc
  · simp at hc; subst hc; rfl
  · rw [List.mem_reverse, List.mem_map] at hc
    obtain ⟨d, hd, rfl⟩ := hc
    exact isAsciiDigit_digitChar d (Nat.digits_lt_base (by norm_num) hd)

theorem natToChars_ne_nil (n : Nat) : natToChars n ≠ [] := by
  unfold natToChars
  split
  · simp
  · simp [Nat.digits_ne_nil_iff_ne_zero, *]

theorem dropWhile_eq_self_of_none (p : Char → Bool) (l : List Char)
    (h : ∀ c ∈ l, p c = false) : l.dropWhile p = l := by
  cases l with
  | nil => rfl
  | cons c rest =>
    rw [List.dropWhile_cons_of_neg]
    simp [h c (by simp)]

theorem pyStripChars_eq_self (l : List Char)
    (h : ∀ c ∈ l, pyWhitespace c = false) : pyStripChars l = l := by
  unfold pyStripChars
  rw [dropWhile_eq_self_of_none _ _ h, dropWhile_eq_self_of_none,
    List.reverse_reverse]
  intro c hc
  exact h c (List.mem_reverse.mp hc)

theorem takeWhile_eq_self_of_all (p : Char → Bool) (l : List Char)
    (h : ∀ c ∈ l, p c = true) : l.takeWhile p = l := by
  induction l with
  | nil => rfl
  | cons c rest ih =>
    rw [List.takeWhile_cons_of_pos (by simp [h c (by simp)])]
    rw [ih (fun x hx => h x (by simp [hx]))]

theorem splitPred_of_no_sep (p : Char → Bool) (a : List Char)
    (h : ∀ c ∈ a, p c = false) : splitPred p a = [a] := by
  induction a with
  | nil => rfl
  | cons c rest ih =>
    have hc : p c = false := h c (by simp)
    simp only [splitPred, hc, Bool.false_eq_true, if_false]
    rw [ih (fun x hx => h x (by simp [hx]))]

theorem splitPred_append_sep (p : Char → Bool) (a : List Char)
    (h : ∀ c ∈ a, p c = false) (sep : Char) (hs : p sep = true)
    (b : List Char) : splitPred p (a ++ sep :: b) = a :: splitPred p b := by
  induction a with
  | nil => simp [splitPred, hs]
  | cons c rest ih =>
    have hc : p c = false := h c (by simp)
    simp only [List.cons_append, splitPred, hc, Bool.false_eq_true, if_false,
      List.append_eq]
    rw [ih (fun x hx => h x (by simp [hx]))]

theorem intToChars_no_ws (m : Int) :
    ∀ c ∈ intToChars m, pyWhitespace c = false := by
  intro c hc
  unfold intToChars at hc
  split at hc
  · rcases List.mem_cons.mp hc with rfl | hm
    · rfl
    · exact pyWhitespace_of_digit c (natToChars_all_digits _ c hm)
  · exact pyWhitespace_of_digit c (natToChars_all_digits _ c hc)

theorem pyIntOfChars_of_digits (ds : List Char) (hne : ds ≠ [])
    (hd : ∀ c ∈ ds, isAsciiDigit c = true) :
    pyIntOfChars ds = some ((charsVal ds : Int)) := by
  unfold pyIntOfChars
  rw [pyStripChars_eq_self ds (fun c hc => pyWhitespace_of_digit c (hd c hc))]
  cases ds with
  | nil => exact absurd rfl hne
  | cons c rest =>
    have hc : isAsciiDigit c = true := hd c (by simp)
    have h1 : c ≠ '+' := digit_ne c hc _ (by decide)
    have h2 : c ≠ '-' := digit_ne c hc _ (by decide)
    have hall : (c :: rest).all isAsciiDigit = true :=
      List.all_eq_true.mpr (fun x hx => hd x hx)
    simp [h1, h2, hall]

theorem pyIntOfChars_neg_digits (ds : List Char) (hne : ds ≠ [])
    (hd : ∀ c ∈ ds, isAsciiDigit c = true) :
    pyIntOfChars ('-' :: ds) = some (-(charsVal ds : Int)) := by
  unfold pyIntOfChars
  rw [pyStripChars_eq_self ('-' :: ds)]
  · have hall : ds.all isAsciiDigit = true :=
      List.all_eq_true.mpr (fun x hx => hd x hx)
    have hne2 : ds.isEmpty = false := by
      cases ds with
      | nil => exact absurd rfl hne
      | cons a l => rfl
    simp [hall, hne2]
  · intro c hc
    rcases List.mem_cons.mp hc with rfl | hm
    · rfl
    · exact pyWhitespace_of_digit c (hd c hm)

theorem pyIntOfChars_natToChars (n : Nat) :
    pyIntOfChars (natToChars n) = some ((n : Int)) := by
  rw [pyIntOfChars_of_digits _ (natToChars_ne_nil n) (natToChars_all_digits n),
    charsVal_natToChars]

theorem pyIntOfChars_intToChars (m : Int) : pyIntOfChars (intToChars m) = some m := by
  by_cases hm : m < 0
  · have e : intToChars m = '-' :: natToChars m.natAbs := by
      unfold intToChars; rw [if_pos hm]
    rw [e, pyIntOfChars_neg_digits _ (natToChars_ne_nil _) (natToChars_all_digits _),
      charsVal_natToChars]
    congr 1
    omega
  · have e : intToChars m = natToChars m.natAbs := by
      unfold intToChars; rw [if_neg hm]
    rw [e, pyIntOfChars_natToChars]
    exact congrArg some (Int.natAbs_of_nonneg (by omega))

theorem pyLeadingInt_of_digits (ds : List Char) (hne : ds ≠ [])
    (hd : ∀ c ∈ ds, isAsciiDigit c = true) :
    pyLeadingInt ds = (charsVal ds : Int) := by
  unfold pyLeadingInt signedDigitsMatch pyIntOfMatched
  rw [pyStripChars_eq_self ds (fun c hc => pyWhitespace_of_digit c (hd c hc))]
  cases ds with
  | nil => exact absurd rfl hne
  | cons c rest =>
    have hc : isAsciiDigit c = true := hd c (by simp)
    have h1 : c ≠ '+' := digit_ne c hc _ (by decide)
    have h2 : c ≠ '-' := digit_ne c hc _ (by decide)
    rw [takeWhile_eq_self_of_all _ _ (fun x hx => hd x hx)]
    simp [h1, h2]

theorem pyLeadingInt_neg_digits (ds : List Char) (hne : ds ≠ [])
    (hd : ∀ c ∈ ds, isAsciiDigit c = true) :
    pyLeadingInt ('-' :: ds) = -(charsVal ds : Int) := by
  unfold pyLeadingInt signedDigitsMatch pyIntOfMatched
  rw [pyStripChars_eq_self ('-' :: ds)]
  · rw [List.tail_cons, takeWhile_eq_self_of_all _ _ (fun x hx => hd x hx)]
    have hne2 : ds.isEmpty = false := by
      cases ds with
      | nil => exact absurd rfl hne
      | cons a l => rfl
    simp [hne2]
  · intro c hc
    rcases List.mem_cons.mp hc with rfl | hm
    · rfl
    · exact pyWhitespace_of_digit c (hd c hm)

theorem pyLeadingInt_intToChars (m : Int) : pyLeadingInt (intToChars m) = m := by
  by_cases hm : m < 0
  · have e : intToChars m = '-' :: natToChars m.natAbs := by
      unfold intToChars; rw [if_pos hm]
    rw [e, pyLeadingInt_neg_digits _ (natToChars_ne_nil _) (natToChars_all_digits _),
      charsVal_natToChars]
    omega
  · have e : intToChars m = natToChars m.natAbs := by
      unfold intToChars; rw [if_neg hm]
    rw [e, pyLeadingInt_of_digits _ (natToChars_ne_nil _) (natToChars_all_digits _),
      charsVal_natToChars]
    omega

theorem pyLeadingInt_eq_spec (cs : List Char) :
    pyLeadingInt cs = specLeadingInt cs := by
  unfold pyLeadingInt specLeadingInt signedDigitsMatch pyIntOfMatched
  generalize pyStripChars cs = t
  cases t with
  | nil => simp
  | cons c r =>
    by_cases h1 : c = '+'
    · subst h1
      cases e : r.takeWhile isAsciiDigit with
      | nil => simp [e]
      | cons d ds => simp [e]
    · by_cases h2 : c = '-'
      · subst h2
        cases e : r.takeWhile isAsciiDigit with
        | nil => simp [e]
        | cons d ds => simp [e]
      · by_cases h3 : isAsciiDigit c
        · rw [List.takeWhile_cons_of_pos (by simp [h3])]
          have h4 : c ≠ '+' := h1
          simp [h1, h2, List.takeWhile_cons_of_pos, h3]
        · rw [List.takeWhile_cons_of_neg (by simp [h3])]
          simp [h1, h2, List.takeWhile_cons_of_neg, h3]

/-- C10: value coercion is total and never raises in the modelled universe:
    a None input coerces to None for every target type; for integer targets
    a string (or decoded bytes) input yields the leading optionally-signed
    decimal integer of its stripped text, or 0 when the text has no leading
    integer, so a stored 3/10 reads as 3; for float targets likewise, with
    0.0 as the fallback. -/
theorem C10_safe_cast_total :
    (∀ out : PyType, pySafeCast out PyVal.vnone = PyVal.vnone) ∧
    (∀ s : List Char, pySafeCast .tint (.vstr s) = .vint (specLeadingInt s)) ∧
    pySafeCast .tint (.vstr ['3', '/', '1', '0']) = .vint 3 ∧
    (∀ bs : List Nat, pySafeCast .tint (.vbytes bs) =
      .vint (specLeadingInt (decodeUtf8Ignore bs))) ∧
    pySafeCast .tfloat (.vstr ['3', '/', '1', '0']) = .vfloat 3 ∧
    pySafeCast .tfloat (.vstr ['x', '1']) = .vfloat 0 ∧
    pySafeCast .tfloat (.vstr ['-', '2', '.', '5']) = .vfloat (-(5 / 2 : ℚ)) := by
  have hf : pySafeCast .tfloat (.vstr ['-', '2', '.', '5']) =
      .vfloat (-(2 + 5 / 10 : ℚ)) := rfl
  refine ⟨fun out => by cases out <;> rfl, fun s => ?_, by decide, fun bs => ?_,
    rfl, rfl, by rw [hf]; norm_num⟩
  · show PyVal.vint (pyLeadingInt s) = PyVal.vint (specLeadingInt s)
    rw [pyLeadingInt_eq_spec]
  · show PyVal.vint (pyLeadingInt (decodeUtf8Ignore bs)) =
      PyVal.vint (specLeadingInt (decodeUtf8Ignore bs))
    rw [pyLeadingInt_eq_spec]

/-! ### The read-resolution of MediaField (claim C1) -/

theorem pySafeCast_vnone (out : PyType) : pySafeCast out PyVal.vnone = PyVal.vnone := by
  cases out <;> rfl

theorem fieldReadLoop_find (t : TagSet) (l : List Style) (out : PyVal) (s : Style)
    (h : l.find? (fun st => pyTruthy (st.sget t)) = some s) :
    fieldReadLoop t l out = s.sget t := by
  induction l generalizing out with
  | nil => simp at h
  | cons a rest ih =>
    rw [List.find?_cons] at h
    by_cases ha : pyTruthy (a.sget t)
    · rw [ha] at h
      obtain rfl : a = s := by simpa using h
      simp [fieldReadLoop, ha]
    · rw [Bool.not_eq_true] at ha
      rw [ha] at h
      simp only [fieldReadLoop, ha, Bool.false_eq_true, if_false]
      exact ih _ h

theorem fieldReadLoop_no_truthy (t : TagSet) (l : List Style) (out : PyVal)
    (h : ∀ s ∈ l, pyTruthy (s.sget t) = false) :
    fieldReadLoop t l out = (l.map (fun s => s.sget t)).getLastD out := by
  induction l generalizing out with
  | nil => rfl
  | cons a rest ih =>
    have ha : pyTruthy (a.sget t) = false := h a (by simp)
    simp only [fieldReadLoop, ha, Bool.false_eq_true, if_false, List.map_cons,
      List.getLastD_cons]
    exact ih _ (fun s hs => h s (by simp [hs]))

theorem getLastD_of_all_eq {α : Type} (l : List α) (x : α)
    (h : ∀ v ∈ l, v = x) : l.getLastD x = x := by
  induction l with
  | nil => rfl
  | cons a rest ih =>
    have ha := h a (by simp)
    subst ha
    rw [List.getLastD_cons, ih (fun v hv => h v (by simp [hv]))]

theorem listFieldReadLoop_empty (t : TagSet) (l : List Style)
    (h : ∀ s ∈ l, s.sgetList t = none ∨ s.sgetList t = some []) :
    listFieldReadLoop t l = none := by
  induction l with
  | nil => rfl
  | cons a rest ih =>
    have ha := h a (by simp)
    unfold listFieldReadLoop
    rcases ha with ha | ha <;>
      · rw [ha]
        exact ih (fun s hs => h s (by simp [hs]))

/-- C1 (amended): get() coerces and returns the first truthy (non-empty,
    non-zero, non-false) value among the applicable strategies in declared
    order; when no applicable strategy yields a truthy value the coercion
    applies to the last applicable strategy's raw value, and in particular
    when every applicable strategy reports absence the field reads as None,
    not as the declared type's zero value; a list field whose applicable
    strategies all report absence or an empty list likewise reads None
    rather than an empty list. -/
theorem C1_field_get_resolution (outType : PyType) (styles : List Style)
    (fmt : List Char) (t : TagSet) :
    (∀ s : Style,
      (applicableStyles styles fmt).find? (fun st => pyTruthy (st.sget t)) = some s →
      fieldGet outType styles fmt t = pySafeCast outType (s.sget t)) ∧
    ((∀ s ∈ applicableStyles styles fmt, pyTruthy (s.sget t) = false) →
      fieldGet outType styles fmt t =
        pySafeCast outType
          (((applicableStyles styles fmt).map (fun s => s.sget t)).getLastD
            PyVal.vnone)) ∧
    ((∀ s ∈ applicableStyles styles fmt, s.sget t = PyVal.vnone) →
      fieldGet outType styles fmt t = PyVal.vnone) ∧
    ((∀ s ∈ applicableStyles styles fmt,
        s.sgetList t = none ∨ s.sgetList t = some []) →
      listFieldGet outType styles fmt t = none) := by
  refine ⟨fun s hs => ?_, fun h => ?_, fun h => ?_, fun h => ?_⟩
  · unfold fieldGet
    rw [fieldReadLoop_find t _ _ s hs]
  · unfold fieldGet
    rw [fieldReadLoop_no_truthy t _ _ h]
  · unfold fieldGet
    rw [fieldReadLoop_no_truthy t _ _
      (fun s hs => by rw [h s hs]; rfl)]
    rw [getLastD_of_all_eq _ _ (fun v hv => ?_), pySafeCast_vnone]
    obtain ⟨s, hs, rfl⟩ := List.mem_map.mp hv
    exact h s hs
  · unfold listFieldGet
    rw [listFieldReadLoop_empty t _ h]

/-- C1 counterexample: an integer field with one applicable strategy and an
    empty tag set reads None, not the zero value 0 the claim states; and a
    stored present-but-falsy first value (0) is skipped in favour of a later
    strategy's 7, so resolution is by truthiness, not by mere presence. -/
theorem C1_counterexample :
    fieldGet .tint [baseStyle ⟨['X'], .tstr, none, 2, false⟩] (("FLAC").data)
      [] = PyVal.vnone ∧
    PyVal.vnone ≠ PyVal.vint 0 ∧
    fieldGet .tint
      [baseStyle ⟨['A'], .tstr, none, 2, false⟩,
       baseStyle ⟨['B'], .tstr, none, 2, false⟩] (("FLAC").data)
      [(['A'], [PyVal.vint 0]), (['B'], [PyVal.vint 7])] = PyVal.vint 7 := by
  refine ⟨by decide, by decide, by decide⟩

/-- Witness: the C1 resolution theorem applied to an integer field over one
    applicable strategy and an empty tag set. -/
theorem C1_field_get_resolution_witness :
    fieldGet .tint [baseStyle ⟨['X'], .tstr, none, 2, false⟩] (("FLAC").data)
      [] = PyVal.vnone :=
  (C1_field_get_resolution .tint [baseStyle ⟨['X'], .tstr, none, 2, false⟩]
    (("FLAC").data) []).2.2.1 (by decide)

/-! ### Tag-set lemmas for the write path -/

theorem tagLookup_tagStore_self (k : List Char) (vs : List PyVal) (t : TagSet) :
    tagLookup k (tagStore k vs t) = some vs := by
  induction t with
  | nil => simp [tagStore, tagLookup]
  | cons e rest ih =>
    by_cases he : e.1 == k
    · simp [tagStore, he, tagLookup]
    · simp only [tagStore, he, Bool.false_eq_true, if_false]
      simpa [tagLookup, List.find?_cons, he] using ih

theorem tagLookup_tagStore_other (k k2 : List Char) (h : ¬(k == k2) = true)
    (vs : List PyVal) (t : TagSet) :
    tagLookup k (tagStore k2 vs t) = tagLookup k t := by
  induction t with
  | nil =>
    have hk : ¬(k2 == k) = true := by
      simp only [beq_iff_eq] at h ⊢
      exact fun e => h (by rw [e])
    simp [tagStore, tagLookup, hk]
  | cons e rest ih =>
    by_cases he : e.1 == k2
    · have hek : ¬(e.1 == k) = true := by
        simp only [beq_iff_eq] at he h ⊢
        rw [he]
        exact fun hh => h (by rw [hh])
      have hk2 : ¬(k2 == k) = true := by
        simp only [beq_iff_eq] at h ⊢
        exact fun hh => h (by rw [hh])
      simp [tagStore, he, tagLookup, List.find?_cons, hek, hk2]
    · simp only [tagStore, he, Bool.false_eq_true, if_false]
      by_cases hek : e.1 == k
      · simp [tagLookup, List.find?_cons, hek]
      · simpa [tagLookup, List.find?_cons, hek] using ih

theorem tagLookup_tagDelete_self (k : List Char) (t : TagSet) :
    tagLookup k (tagDelete k t) = none := by
  induction t with
  | nil => rfl
  | cons e rest ih =>
    by_cases he : e.1 == k
    · simpa [tagDelete, he, tagLookup] using ih
    · simpa [tagDelete, he, tagLookup, List.find?_cons] using ih

theorem tagLookup_tagDelete_other (k k2 : List Char) (h : ¬(k == k2) = true)
    (t : TagSet) : tagLookup k (tagDelete k2 t) = tagLookup k t := by
  induction t with
  | nil => rfl
  | cons e rest ih =>
    by_cases he : e.1 == k2
    · have hek : ¬(e.1 == k) = true := by
        simp only [beq_iff_eq] at he h ⊢
        rw [he]
        exact fun hh => h (by rw [← hh])
      simpa [tagDelete, he, tagLookup, List.find?_cons, hek] using ih
    · by_cases hek : e.1 == k
      · simp [tagDelete, he, tagLookup, List.find?_cons, hek]
      · simpa [tagDelete, he, tagLookup, List.find?_cons, hek] using ih

theorem tagLookup_ssDelete_self (p : StorageParams) (t : TagSet) :
    tagLookup p.key (ssDelete p t) = none := by
  unfold ssDelete
  by_cases h : (tagLookup p.key t).isSome
  · rw [if_pos h, tagLookup_tagDelete_self]
  · rw [if_neg h]
    cases e : tagLookup p.key t with
    | none => rfl
    | some vs => rw [e] at h; simp at h

theorem tagLookup_ssDelete_other (k : List Char) (p : StorageParams)
    (h : ¬(k == p.key) = true) (t : TagSet) :
    tagLookup k (ssDelete p t) = tagLookup k t := by
  unfold ssDelete
  split
  · exact tagLookup_tagDelete_other k p.key h t
  · rfl

/-! ### Write-through of the field setter over base styles (claim C6) -/

theorem applicable_base (ps : List StorageParams) (fmt : List Char)
    (hfmt : baseFormats.contains fmt = true) :
    applicableStyles (ps.map baseStyle) fmt = ps.map baseStyle := by
  unfold applicableStyles
  rw [List.filter_eq_self]
  intro s hs
  obtain ⟨p, _, rfl⟩ := List.mem_map.mp hs
  exact hfmt

theorem foldl_ssSet_preserve (v : PyVal) (k : List Char)
    (ps : List StorageParams) (h : ∀ p ∈ ps, p.key ≠ k) (t : TagSet) :
    tagLookup k
      (ps.foldl (fun ts q => if q.readOnly then ts else ssSet q v ts) t) =
      tagLookup k t := by
  induction ps generalizing t with
  | nil => rfl
  | cons q rest ih =>
    rw [List.foldl_cons, ih (fun p hp => h p (by simp [hp])) _]
    by_cases hq : q.readOnly
    · rw [if_pos hq]
    · rw [if_neg hq]
      exact tagLookup_tagStore_other k q.key
        (by simpa using fun e => h q (by simp) (by rw [e])) _ t

theorem foldl_ssSet_lookup (v : PyVal) (ps : List StorageParams)
    (hkeys : (ps.map StorageParams.key).Pairwise (fun a b => a ≠ b))
    (t : TagSet) (p : StorageParams) (hp : p ∈ ps) (hro : p.readOnly = false) :
    tagLookup p.key
      (ps.foldl (fun ts q => if q.readOnly then ts else ssSet q v ts) t) =
      some [ssSerialize p v] := by
  induction ps generalizing t with
  | nil => simp at hp
  | cons q rest ih =>
    rw [List.map_cons, List.pairwise_cons] at hkeys
    rcases List.mem_cons.mp hp with rfl | hmem
    · rw [List.foldl_cons, if_neg (by simp [hro]),
        foldl_ssSet_preserve v p.key rest
          (fun r hr => fun e => hkeys.1 r.key (List.mem_map_of_mem _ hr) e.symm)]
      exact tagLookup_tagStore_self _ _ _
    · rw [List.foldl_cons]
      exact ih hkeys.2 _ hmem

theorem foldl_sdel_none (k : List Char) (ps : List StorageParams) (t : TagSet)
    (h : tagLookup k t = none) :
    tagLookup k (ps.foldl (fun ts q => ssDelete q ts) t) = none := by
  induction ps generalizing t with
  | nil => exact h
  | cons q rest ih =>
    rw [List.foldl_cons]
    refine ih _ ?_
    by_cases hk : (k == q.key) = true
    · have : k = q.key := by simpa using hk
      subst this
      exact tagLookup_ssDelete_self q t
    · rw [tagLookup_ssDelete_other k q hk t]
      exact h

theorem foldl_sdel_lookup (ps : List StorageParams) (t : TagSet)
    (p : StorageParams) (hp : p ∈ ps) :
    tagLookup p.key (ps.foldl (fun ts q => ssDelete q ts) t) = none := by
  induction ps generalizing t with
  | nil => simp at hp
  | cons q rest ih =>
    rcases List.mem_cons.mp hp with rfl | hmem
    · rw [List.foldl_cons]
      exact foldl_sdel_none _ _ _ (tagLookup_ssDelete_self p t)
    · rw [List.foldl_cons]
      exact ih _ hmem

theorem getLastD_of_all_eq_ne_nil {α : Type} (l : List α) (x d : α)
    (hne : l ≠ []) (h : ∀ v ∈ l, v = x) : l.getLastD d = x := by
  induction l generalizing d with
  | nil => exact absurd rfl hne
  | cons a rest ih =>
    cases rest with
    | nil => simpa using h a (by simp)
    | cons b l2 =>
      rw [List.getLastD_cons]
      exact ih a (by simp) (fun v hv => h v (List.mem_cons_of_mem a hv))

theorem ssDeserialize_none_suffix (p : StorageParams) (h : p.suffix = none)
    (v : PyVal) : ssDeserialize p v = v := by
  unfold ssDeserialize
  rw [h]

theorem baseStyle_sget (p : StorageParams) (t : TagSet) :
    (baseStyle p).sget t = ssGet p t := rfl

theorem formatFloat_two_zero : formatFloat 2 0 = ['0', '.', '0', '0'] := by
  unfold formatFloat
  have h0 : (0 : ℚ) * 10 ^ 2 = 0 := by norm_num
  rw [h0]
  have h1 : pyRoundQ 0 = 0 := by
    unfold pyRoundQ
    rw [show Rat.floor 0 = (0 : Int) from rfl]
    norm_num
  rw [h1]
  decide

/-- C6 (amended): for a scalar field over base storage styles, setting the
    field to None writes the declared type's zero value, serialized, through
    every applicable non-read-only strategy, leaving every written slot
    present rather than deleting it, and the call never raises; explicit
    delete removes every applicable strategy's slot; reading the field back
    after set(None) yields the zero value.  The exception forced by the
    counterexample: QNumberField's overridden setter multiplies the value
    before any None handling and raises TypeError on None instead. -/
theorem C6_set_none_behavior (outType : PyType) (ps : List StorageParams)
    (fmt : List Char) (t : TagSet)
    (hfmt : baseFormats.contains fmt = true)
    (hkeys : (ps.map StorageParams.key).Pairwise (fun a b => a ≠ b)) :
    (∀ p ∈ ps, p.readOnly = false →
      tagLookup p.key (fieldSet outType (ps.map baseStyle) fmt PyVal.vnone t) =
        some [ssSerialize p (noneValue outType)]) ∧
    (∀ p ∈ ps, tagLookup p.key (fieldDelete (ps.map baseStyle) fmt t) = none) ∧
    ((outType = PyType.tint ∨ outType = PyType.tfloat ∨
        outType = PyType.tbool ∨ outType = PyType.tstr) →
      ps ≠ [] →
      (∀ p ∈ ps, p.readOnly = false ∧ p.suffix = none ∧
        p.asType = PyType.tstr ∧ p.floatPlaces = 2) →
      fieldGet outType (ps.map baseStyle) fmt
        (fieldSet outType (ps.map baseStyle) fmt PyVal.vnone t) =
        noneValue outType) := by
  have happ := applicable_base ps fmt hfmt
  have hset : fieldSet outType (ps.map baseStyle) fmt PyVal.vnone t =
      ps.foldl
        (fun ts q => if q.readOnly then ts else ssSet q (noneValue outType) ts)
        t := by
    unfold fieldSet
    rw [if_pos rfl, happ, List.foldl_map]
    rfl
  refine ⟨fun p hp hro => ?_, fun p hp => ?_, fun hsc hne hprops => ?_⟩
  · rw [hset]
    exact foldl_ssSet_lookup _ ps hkeys t p hp hro
  · unfold fieldDelete
    rw [happ, List.foldl_map]
    exact foldl_sdel_lookup ps t p hp
  · cases ps with
    | nil => exact absurd rfl hne
    | cons p0 rest =>
      obtain ⟨hro0, hsuf0, hty0, hfp0⟩ := hprops p0 (by simp)
      have hlook : ∀ p ∈ p0 :: rest, p.readOnly = false →
          tagLookup p.key
            (fieldSet outType ((p0 :: rest).map baseStyle) fmt PyVal.vnone t) =
            some [ssSerialize p (noneValue outType)] := by
        intro p hp hro
        rw [hset]
        exact foldl_ssSet_lookup _ _ hkeys t p hp hro
      set t2 := fieldSet outType ((p0 :: rest).map baseStyle) fmt PyVal.vnone t
        with ht2
      have hget : ∀ p ∈ p0 :: rest, (baseStyle p).sget t2 =
          ssSerialize p (noneValue outType) := by
        intro p hp
        obtain ⟨hro, hsuf, _, _⟩ := hprops p hp
        show ssGet p t2 = _
        unfold ssGet ssFetch
        rw [hlook p hp hro, ssDeserialize_none_suffix p hsuf]
      unfold fieldGet
      rw [happ]
      rcases hsc with rfl | rfl | rfl | rfl
      · have hser : ssSerialize p0 (noneValue PyType.tint) = PyVal.vstr ['0'] := by
          unfold ssSerialize
          rw [hty0, hsuf0]
          rfl
        rw [fieldReadLoop_find t2 _ _ (baseStyle p0) ?_]
        · rw [hget p0 (by simp), hser]
          decide
        · rw [List.map_cons, List.find?_cons, hget p0 (by simp), hser]
          rfl
      · have hser : ssSerialize p0 (noneValue PyType.tfloat) =
            PyVal.vstr ['0', '.', '0', '0'] := by
          unfold ssSerialize
          rw [hty0, hsuf0, hfp0]
          show PyVal.vstr (formatFloat 2 0) = PyVal.vstr ['0', '.', '0', '0']
          rw [formatFloat_two_zero]
        rw [fieldReadLoop_find t2 _ _ (baseStyle p0) ?_]
        · rw [hget p0 (by simp), hser]
          have hpl : pyLeadingFloat ['0', '.', '0', '0'] = ((0 : ℚ) + 0 / 10 ^ 2) :=
            rfl
          show PyVal.vfloat (pyLeadingFloat ['0', '.', '0', '0']) = PyVal.vfloat 0
          rw [hpl]
          norm_num
        · rw [List.map_cons, List.find?_cons, hget p0 (by simp), hser]
          rfl
      · have hser : ssSerialize p0 (noneValue PyType.tbool) = PyVal.vstr ['0'] := by
          unfold ssSerialize
          rw [hty0, hsuf0]
          rfl
        rw [fieldReadLoop_find t2 _ _ (baseStyle p0) ?_]
        · rw [hget p0 (by simp), hser]
          decide
        · rw [List.map_cons, List.find?_cons, hget p0 (by simp), hser]
          rfl
      · have hallv : ∀ s ∈ (p0 :: rest).map baseStyle, s.sget t2 = PyVal.vstr [] := by
          intro s hs
          obtain ⟨p, hp, rfl⟩ := List.mem_map.mp hs
          obtain ⟨_, hsuf, hty, _⟩ := hprops p hp
          rw [hget p hp]
          unfold ssSerialize
          rw [hty, hsuf]
          rfl
        rw [fieldReadLoop_no_truthy t2 _ _
          (fun s hs => by rw [hallv s hs]; rfl)]
        rw [getLastD_of_all_eq_ne_nil _ (PyVal.vstr []) _ (by simp)
          (fun v hv => ?_)]
        · rfl
        · obtain ⟨s, hs, rfl⟩ := List.mem_map.mp hv
          exact hallv s hs

/-- Witness: the C6 behaviour theorem at one non-read-only text style over
    an empty tag set. -/
theorem C6_set_none_behavior_witness :
    tagLookup ['A']
      (fieldSet .tint [baseStyle ⟨['A'], .tstr, none, 2, false⟩] (("FLAC").data)
        PyVal.vnone []) = some [PyVal.vstr ['0']] :=
  (C6_set_none_behavior .tint [⟨['A'], .tstr, none, 2, false⟩] (("FLAC").data)
    [] (by decide) (by simp)).1 ⟨['A'], .tstr, none, 2, false⟩ (by simp) rfl

/-- C6 counterexample: QNumberField set with None raises TypeError (the
    None value reaches the multiplication by the scale factor before the
    None handling of the base setter), rather than writing the zero value;
    the claim says set(None) on every scalar field never raises. -/
theorem C6_counterexample :
    qnumFieldSet 8 [baseStyle ⟨['G'], .tstr, none, 2, false⟩] (("FLAC").data)
      PyVal.vnone [] = Except.error () := rfl

/-! ### The Q-number field (claim C9) -/

theorem ratFloor_eq_intFloor (q : ℚ) : Rat.floor q = ⌊q⌋ := by
  have h1 : (Rat.floor q : ℚ) ≤ q := Rat.le_floor.mp le_rfl
  have h2 : (⌊q⌋ : ℚ) ≤ q := Int.floor_le q
  have h3 : ⌊q⌋ ≤ Rat.floor q := Rat.le_floor.mpr h2
  have h4 : Rat.floor q ≤ ⌊q⌋ := Int.le_floor.mpr h1
  omega

theorem pyRoundQ_close (q : ℚ) : |(pyRoundQ q : ℚ) - q| ≤ 1 / 2 := by
  unfold pyRoundQ
  rw [ratFloor_eq_intFloor]
  have h1 : (⌊q⌋ : ℚ) ≤ q := Int.floor_le q
  have h2 : q < ⌊q⌋ + 1 := Int.lt_floor_add_one q
  split_ifs with ha hb hc
  · rw [abs_le]
    constructor <;> push_cast <;> linarith
  · rw [abs_le]
    constructor <;> push_cast <;> linarith
  · rw [abs_le]
    constructor <;> push_cast <;> linarith
  · rw [abs_le]
    constructor <;> push_cast <;> linarith

theorem intToChars_ne_nil (m : Int) : intToChars m ≠ [] := by
  unfold intToChars
  split
  · simp
  · exact natToChars_ne_nil _

/-- C9: for the fixed-point field with fraction-bit count b over a base text
    style, set stores round(x times 2 to the b) as an integer in the slot,
    get returns the stored integer divided by 2 to the b, and the round trip
    lands within 1 over 2 to the b of x. -/
theorem C9_qnumber_roundtrip (bits : Nat) (k fmt : List Char) (t : TagSet)
    (x : ℚ) (hfmt : baseFormats.contains fmt = true) :
    qnumFieldSet bits [baseStyle ⟨k, .tstr, none, 2, false⟩] fmt (.vfloat x) t =
      Except.ok (tagStore k
        [PyVal.vstr (intToChars (pyRoundQ (x * 2 ^ bits)))] t) ∧
    qnumFieldGet bits [baseStyle ⟨k, .tstr, none, 2, false⟩] fmt
      (tagStore k [PyVal.vstr (intToChars (pyRoundQ (x * 2 ^ bits)))] t) =
      some ((pyRoundQ (x * 2 ^ bits) : ℚ) / 2 ^ bits) ∧
    |((pyRoundQ (x * 2 ^ bits) : ℚ) / 2 ^ bits) - x| ≤ 1 / 2 ^ bits := by
  have happ : applicableStyles [baseStyle ⟨k, .tstr, none, 2, false⟩] fmt =
      [baseStyle ⟨k, .tstr, none, 2, false⟩] :=
    applicable_base [⟨k, .tstr, none, 2, false⟩] fmt hfmt
  have hlook := tagLookup_tagStore_self k
    [PyVal.vstr (intToChars (pyRoundQ (x * 2 ^ bits)))] t
  have hemp : (intToChars (pyRoundQ (x * 2 ^ bits))).isEmpty = false := by
    cases e : intToChars (pyRoundQ (x * 2 ^ bits)) with
    | nil => exact absurd e (intToChars_ne_nil _)
    | cons a l => rfl
  refine ⟨?_, ?_, ?_⟩
  · show Except.ok (fieldSet .tint [baseStyle ⟨k, .tstr, none, 2, false⟩] fmt
      (.vint (pyRoundQ (x * 2 ^ bits))) t) = _
    have hset : fieldSet .tint [baseStyle ⟨k, .tstr, none, 2, false⟩] fmt
        (.vint (pyRoundQ (x * 2 ^ bits))) t =
        tagStore k [PyVal.vstr (intToChars (pyRoundQ (x * 2 ^ bits)))] t := by
      unfold fieldSet
      rw [happ]
      rfl
    rw [hset]
  · have hsget : (baseStyle ⟨k, .tstr, none, 2, false⟩).sget
        (tagStore k [PyVal.vstr (intToChars (pyRoundQ (x * 2 ^ bits)))] t) =
        PyVal.vstr (intToChars (pyRoundQ (x * 2 ^ bits))) := by
      rw [baseStyle_sget]
      unfold ssGet ssFetch
      rw [hlook]
      rfl
    have hfg : fieldGet .tint [baseStyle ⟨k, .tstr, none, 2, false⟩] fmt
        (tagStore k [PyVal.vstr (intToChars (pyRoundQ (x * 2 ^ bits)))] t) =
        PyVal.vint (pyRoundQ (x * 2 ^ bits)) := by
      unfold fieldGet
      rw [happ, fieldReadLoop_find _ _ _ _ ?_]
      · rw [hsget]
        show PyVal.vint (pyLeadingInt (intToChars (pyRoundQ (x * 2 ^ bits)))) = _
        rw [pyLeadingInt_intToChars]
      · rw [List.find?_cons, hsget]
        show (match (!(intToChars (pyRoundQ (x * 2 ^ bits))).isEmpty : Bool) with
          | true => some (baseStyle ⟨k, .tstr, none, 2, false⟩)
          | false => List.find? _ []) = _
        rw [hemp]
        rfl
    unfold qnumFieldGet
    rw [hfg]
  · have h := pyRoundQ_close (x * 2 ^ bits)
    have hc : (0 : ℚ) < 2 ^ bits := by positivity
    have he : ((pyRoundQ (x * 2 ^ bits) : ℚ) / 2 ^ bits - x) =
        ((pyRoundQ (x * 2 ^ bits) : ℚ) - x * 2 ^ bits) / 2 ^ bits := by
      field_simp
      ring
    rw [he, abs_div, abs_of_pos hc]
    have hnum : |(pyRoundQ (x * 2 ^ bits) : ℚ) - x * 2 ^ bits| ≤ 1 :=
      le_trans h (by norm_num)
    calc |(pyRoundQ (x * 2 ^ bits) : ℚ) - x * 2 ^ bits| / 2 ^ bits
        ≤ 1 / 2 ^ bits := by gcongr

/-- Witness: the Q-number round trip bound at eight fraction bits and
    x = 3/2. -/
theorem C9_qnumber_roundtrip_witness :
    |((pyRoundQ ((3 / 2 : ℚ) * 2 ^ 8) : ℚ) / 2 ^ 8) - 3 / 2| ≤ 1 / 2 ^ 8 :=
  (C9_qnumber_roundtrip 8 ['G'] (("FLAC").data) [] (3 / 2) (by decide)).2.2

/-! ### The slash-packed pair strategy (claim C7) -/

theorem ssFetch_tagStore_self (k : List Char) (v : PyVal) (vs : List PyVal)
    (t : TagSet) :
    ssFetch ⟨k, .tstr, none, 2, false⟩ (tagStore k (v :: vs) t) = v := by
  unfold ssFetch
  rw [tagLookup_tagStore_self]

theorem slashFetchUnpacked_pair (k : List Char) (t : TagSet) (a b : List Char)
    (ha : ∀ c ∈ a, isSlash c = false) (hb : ∀ c ∈ b, isSlash c = false) :
    slashFetchUnpacked k (tagStore k [PyVal.vstr (a ++ '/' :: b)] t) =
      [PyVal.vstr a, PyVal.vstr b] := by
  have htr : pyTruthy (PyVal.vstr (a ++ '/' :: b)) = true := by
    simp [pyTruthy]
  have hit : slashItems (PyVal.vstr (a ++ '/' :: b)) =
      [PyVal.vstr a, PyVal.vstr b] := by
    unfold slashItems
    rw [if_pos htr]
    show (splitPred isSlash (a ++ '/' :: b)).map PyVal.vstr = _
    rw [splitPred_append_sep isSlash a ha '/' rfl b,
      splitPred_of_no_sep isSlash b hb]
    rfl
  unfold slashFetchUnpacked
  rw [ssFetch_tagStore_self, hit]
  rfl

theorem slashFetchUnpacked_absent (k : List Char) (t : TagSet)
    (h : tagLookup k t = none) :
    slashFetchUnpacked k t = [PyVal.vnone, PyVal.vnone] := by
  unfold slashFetchUnpacked
  rw [show ssFetch ⟨k, .tstr, none, 2, false⟩ t = PyVal.vnone by
    unfold ssFetch
    rw [h]]
  rfl

theorem slashAdjust_keep (x y : PyVal) (hx : x ≠ PyVal.vnone)
    (hy : y ≠ PyVal.vnone) : slashAdjust [x, y] = [x, y] := by
  simp [slashAdjust, hx, hy]

theorem slashAdjust_drop (x : PyVal) (hx : x ≠ PyVal.vnone) :
    slashAdjust [x, PyVal.vnone] = [x] := by
  simp [slashAdjust, hx]

theorem slashAdjust_fill (y : PyVal) (hy : y ≠ PyVal.vnone) :
    slashAdjust [PyVal.vnone, y] = [PyVal.vstr [], y] := by
  simp [slashAdjust, hy]

/-- C7: for the slash-packed pair strategy, writing one element of the pair
    preserves the other when present and defaults it when the slot is absent
    (the first element to the empty string, the second by dropping it);
    deleting the second element truncates the stored string to the single
    first value; deleting the first element removes the whole slot. -/
theorem C7_slashpack_behavior (k : List Char) (t : TagSet) (a b : List Char)
    (ha : ∀ c ∈ a, isSlash c = false) (hb : ∀ c ∈ b, isSlash c = false)
    (v : PyVal) (hv : v ≠ PyVal.vnone) :
    tagLookup k (slashSet k 0 v (tagStore k [PyVal.vstr (a ++ '/' :: b)] t)) =
      some [PyVal.vstr (pyStrChars v ++ '/' :: b)] ∧
    tagLookup k (slashSet k 1 v (tagStore k [PyVal.vstr (a ++ '/' :: b)] t)) =
      some [PyVal.vstr (a ++ '/' :: pyStrChars v)] ∧
    (tagLookup k t = none →
      tagLookup k (slashSet k 0 v t) = some [PyVal.vstr (pyStrChars v)] ∧
      tagLookup k (slashSet k 1 v t) = some [PyVal.vstr ('/' :: pyStrChars v)]) ∧
    tagLookup k (slashDelete k 1 (tagStore k [PyVal.vstr (a ++ '/' :: b)] t)) =
      some [PyVal.vstr a] ∧
    tagLookup k (slashDelete k 0 (tagStore k [PyVal.vstr (a ++ '/' :: b)] t)) =
      none := by
  have hfu := slashFetchUnpacked_pair k t a b ha hb
  refine ⟨?_, ?_, fun habs => ⟨?_, ?_⟩, ?_, ?_⟩
  · unfold slashSet
    rw [hfu]
    simp only [List.set_cons_zero]
    rw [slashAdjust_keep v (PyVal.vstr b) hv (by simp),
      tagLookup_tagStore_self]
    simp [joinChars, pyStrChars]
  · unfold slashSet
    rw [hfu]
    simp only [List.set_cons_zero, List.set_cons_succ]
    rw [slashAdjust_keep (PyVal.vstr a) v (by simp) hv,
      tagLookup_tagStore_self]
    simp [joinChars, pyStrChars]
  · unfold slashSet
    rw [slashFetchUnpacked_absent k t habs]
    simp only [List.set_cons_zero]
    rw [slashAdjust_drop v hv, tagLookup_tagStore_self]
    simp [joinChars]
  · unfold slashSet
    rw [slashFetchUnpacked_absent k t habs]
    simp only [List.set_cons_zero, List.set_cons_succ]
    rw [slashAdjust_fill v hv, tagLookup_tagStore_self]
    simp [joinChars, pyStrChars]
  · unfold slashDelete
    rw [if_neg (by decide)]
    unfold slashSet
    rw [hfu]
    simp only [List.set_cons_zero, List.set_cons_succ]
    rw [slashAdjust_drop (PyVal.vstr a) (by simp), tagLookup_tagStore_self]
    simp [joinChars, pyStrChars]
  · unfold slashDelete
    rw [if_pos rfl]
    exact tagLookup_ssDelete_self ⟨k, .tstr, none, 2, false⟩ _

/-- Witness: the slash-pack behaviour at the pair 1 slash 2 with value 9
    written to the first position. -/
theorem C7_slashpack_behavior_witness :
    tagLookup ['T'] (slashSet ['T'] 0 (PyVal.vstr ['9'])
      (tagStore ['T'] [PyVal.vstr (['1'] ++ '/' :: ['2'])] [])) =
      some [PyVal.vstr (pyStrChars (PyVal.vstr ['9']) ++ '/' :: ['2'])] :=
  (C7_slashpack_behavior ['T'] [] ['1'] ['2'] (by decide) (by decide)
    (PyVal.vstr ['9']) (by decide)).1

/-! ### The date field (claim C4) -/

theorem charsVal_replicate_zero (k : Nat) :
    charsVal (List.replicate k '0') = 0 := by
  induction k with
  | zero => rfl
  | succ n ih =>
    rw [List.replicate_succ]
    simpa [charsVal, List.foldl_cons, charDigitVal] using ih

theorem charsVal_append_foldl (l1 l2 : List Char) :
    charsVal (l1 ++ l2) =
      l2.foldl (fun a c => 10 * a + charDigitVal c) (charsVal l1) := by
  simp [charsVal, List.foldl_append]

theorem charsVal_pad (k : Nat) (ds : List Char) :
    charsVal (List.replicate k '0' ++ ds) = charsVal ds := by
  rw [charsVal_append_foldl, charsVal_replicate_zero]
  rfl

theorem padLeftZeros_all_digits (w : Nat) (cs : List Char)
    (h : ∀ c ∈ cs, isAsciiDigit c = true) :
    ∀ c ∈ padLeftZeros w cs, isAsciiDigit c = true := by
  intro c hc
  unfold padLeftZeros at hc
  rcases List.mem_append.mp hc with hmem | hmem
  · rw [List.eq_of_mem_replicate hmem]
    rfl
  · exact h c hmem

theorem padLeftZeros_ne_nil (w : Nat) (cs : List Char) (h : cs ≠ []) :
    padLeftZeros w cs ≠ [] := by
  unfold padLeftZeros
  intro he
  exact h (List.append_eq_nil.mp he).2

theorem pyIntOfChars_pad (w n : Nat) :
    pyIntOfChars (padLeftZeros w (natToChars n)) = some ((n : Int)) := by
  rw [pyIntOfChars_of_digits _ (padLeftZeros_ne_nil _ _ (natToChars_ne_nil n))
    (padLeftZeros_all_digits _ _ (natToChars_all_digits n))]
  unfold padLeftZeros
  rw [charsVal_pad, charsVal_natToChars]

theorem fmtZeroPad_natCast (w n : Nat) :
    fmtZeroPad w (n : Int) = padLeftZeros w (natToChars n) := by
  unfold fmtZeroPad
  rw [if_neg (by omega)]
  simp

theorem digit_not_dateSep (c : Char) (h : isAsciiDigit c = true) :
    isDateSep c = false := by
  simp only [isDateSep, Bool.or_eq_false_iff, decide_eq_false_iff_not]
  exact ⟨digit_ne c h _ (by decide), digit_ne c h _ (by decide)⟩

theorem digit_not_timeStart (c : Char) (h : isAsciiDigit c = true) :
    isTimeStart c = false := by
  simp only [isTimeStart, Bool.or_eq_false_iff, decide_eq_false_iff_not]
  exact ⟨⟨digit_ne c h _ (by decide), digit_ne c h _ (by decide)⟩,
    digit_ne c h _ (by decide)⟩

theorem dateComponents_ymd (y mv dv : Int) (hm : mv ≠ 0) (hd : dv ≠ 0) :
    dateComponents y (some mv) (some dv) =
      [fmtZeroPad 4 y, fmtZeroPad 2 mv, fmtZeroPad 2 dv] := by
  simp [dateComponents, optIntTruthy, hm, hd]

theorem dateComponents_year_only (y : Int) :
    dateComponents y none none = [fmtZeroPad 4 y] := rfl

theorem fieldSet_single_str (k fmt : List Char)
    (hfmt : baseFormats.contains fmt = true) (s : List Char) (t : TagSet) :
    fieldSet .tstr [baseStyle ⟨k, .tstr, none, 2, false⟩] fmt (.vstr s) t =
      tagStore k [PyVal.vstr s] t := by
  have happ : applicableStyles [baseStyle ⟨k, .tstr, none, 2, false⟩] fmt =
      [baseStyle ⟨k, .tstr, none, 2, false⟩] :=
    applicable_base [⟨k, .tstr, none, 2, false⟩] fmt hfmt
  unfold fieldSet
  rw [happ]
  rfl

theorem fieldSet_single_int (k fmt : List Char)
    (hfmt : baseFormats.contains fmt = true) (n : Int) (t : TagSet) :
    fieldSet .tstr [baseStyle ⟨k, .tstr, none, 2, false⟩] fmt (.vint n) t =
      tagStore k [PyVal.vstr (intToChars n)] t := by
  have happ : applicableStyles [baseStyle ⟨k, .tstr, none, 2, false⟩] fmt =
      [baseStyle ⟨k, .tstr, none, 2, false⟩] :=
    applicable_base [⟨k, .tstr, none, 2, false⟩] fmt hfmt
  unfold fieldSet
  rw [happ]
  rfl

theorem fieldGet_single_str (k fmt : List Char)
    (hfmt : baseFormats.contains fmt = true) (s : List Char) (hs : s ≠ [])
    (t : TagSet) (hlook : tagLookup k t = some [PyVal.vstr s]) :
    fieldGet .tstr [baseStyle ⟨k, .tstr, none, 2, false⟩] fmt t =
      PyVal.vstr s := by
  have hsget : (baseStyle ⟨k, .tstr, none, 2, false⟩).sget t = PyVal.vstr s := by
    rw [baseStyle_sget]
    unfold ssGet ssFetch
    rw [hlook]
    rfl
  have hemp : s.isEmpty = false := by
    cases s with
    | nil => exact absurd rfl hs
    | cons a l => rfl
  have happ : applicableStyles [baseStyle ⟨k, .tstr, none, 2, false⟩] fmt =
      [baseStyle ⟨k, .tstr, none, 2, false⟩] :=
    applicable_base [⟨k, .tstr, none, 2, false⟩] fmt hfmt
  unfold fieldGet
  rw [happ, fieldReadLoop_find _ _ _ _ ?_]
  · rw [hsget]
    rfl
  · rw [List.find?_cons, hsget]
    show (match (!s.isEmpty : Bool) with
      | true => some (baseStyle ⟨k, .tstr, none, 2, false⟩)
      | false => List.find? _ []) = _
    rw [hemp]
    rfl

/-- C4: after setting the date field with a year and optional month and day,
    the primary slot holds exactly the supplied components serialized as
    YYYY, or YYYY-MM-DD, the legacy year-only strategy is also written, the
    year, month and day sub-fields read back the supplied components, and
    setting the year alone leaves the month and day sub-fields reading
    None. -/
theorem C4_date_field_roundtrip (kp ky fmt : List Char) (t : TagSet)
    (y m d : Nat) (hfmt : baseFormats.contains fmt = true) (hk : kp ≠ ky)
    (hm : 1 ≤ m) (hd : 1 ≤ d) :
    tagLookup kp (dateSetTuple (singleDateField kp ky) fmt (some (y : Int))
        (some (m : Int)) (some (d : Int)) t) =
      some [PyVal.vstr (padLeftZeros 4 (natToChars y) ++ '-' ::
      (padLeftZeros 2 (natToChars m) ++ '-' :: padLeftZeros 2 (natToChars d)))] ∧
    tagLookup ky (dateSetTuple (singleDateField kp ky) fmt (some (y : Int))
        (some (m : Int)) (some (d : Int)) t) =
      some [PyVal.vstr (intToChars (y : Int))] ∧
    dateItemGet (singleDateField kp ky) 0 fmt
      (dateSetTuple (singleDateField kp ky) fmt (some (y : Int))
        (some (m : Int)) (some (d : Int)) t) = some ((y : Int)) ∧
    dateItemGet (singleDateField kp ky) 1 fmt
      (dateSetTuple (singleDateField kp ky) fmt (some (y : Int))
        (some (m : Int)) (some (d : Int)) t) = some ((m : Int)) ∧
    dateItemGet (singleDateField kp ky) 2 fmt
      (dateSetTuple (singleDateField kp ky) fmt (some (y : Int))
        (some (m : Int)) (some (d : Int)) t) = some ((d : Int)) ∧
    tagLookup kp (dateSetTuple (singleDateField kp ky) fmt (some (y : Int))
        none none t) = some [PyVal.vstr (padLeftZeros 4 (natToChars y))] ∧
    dateItemGet (singleDateField kp ky) 0 fmt
      (dateSetTuple (singleDateField kp ky) fmt (some (y : Int)) none none t) =
      some ((y : Int)) ∧
    dateItemGet (singleDateField kp ky) 1 fmt
      (dateSetTuple (singleDateField kp ky) fmt (some (y : Int)) none none t) =
      none ∧
    dateItemGet (singleDateField kp ky) 2 fmt
      (dateSetTuple (singleDateField kp ky) fmt (some (y : Int)) none none t) =
      none := by
  have hk2 : ¬(kp == ky) = true := by simpa using hk
  have hm2 : ((m : Int)) ≠ 0 := by omega
  have hd2 : ((d : Int)) ≠ 0 := by omega
  have hdigA := padLeftZeros_all_digits 4 _ (natToChars_all_digits y)
  have hdigB := padLeftZeros_all_digits 2 _ (natToChars_all_digits m)
  have hdigC := padLeftZeros_all_digits 2 _ (natToChars_all_digits d)
  have hSAne := padLeftZeros_ne_nil 4 _ (natToChars_ne_nil y)
  have hSAemp : (padLeftZeros 4 (natToChars y)).isEmpty = false := by
    cases e : padLeftZeros 4 (natToChars y) with
    | nil => exact absurd e hSAne
    | cons a l => rfl
  have hcomp : dateComponents (y : Int) (some (m : Int)) (some (d : Int)) =
      [padLeftZeros 4 (natToChars y), padLeftZeros 2 (natToChars m),
        padLeftZeros 2 (natToChars d)] := by
    rw [dateComponents_ymd _ _ _ hm2 hd2, fmtZeroPad_natCast,
      fmtZeroPad_natCast, fmtZeroPad_natCast]
  have hA : dateSetTuple (singleDateField kp ky) fmt (some (y : Int))
      (some (m : Int)) (some (d : Int)) t =
      tagStore ky [PyVal.vstr (intToChars (y : Int))]
        (tagStore kp [PyVal.vstr (padLeftZeros 4 (natToChars y) ++ '-' ::
      (padLeftZeros 2 (natToChars m) ++ '-' :: padLeftZeros 2 (natToChars d)))] t) := by
    show fieldSet .tstr [baseStyle ⟨ky, .tstr, none, 2, false⟩] fmt
      (.vint (y : Int))
      (fieldSet .tstr [baseStyle ⟨kp, .tstr, none, 2, false⟩] fmt
        (.vstr (joinChars ['-']
          (dateComponents (y : Int) (some (m : Int)) (some (d : Int))))) t) = _
    rw [hcomp]
    rw [show joinChars ['-'] [padLeftZeros 4 (natToChars y),
        padLeftZeros 2 (natToChars m), padLeftZeros 2 (natToChars d)] =
      padLeftZeros 4 (natToChars y) ++ '-' ::
        (padLeftZeros 2 (natToChars m) ++ '-' :: padLeftZeros 2 (natToChars d))
      from by simp [joinChars]]
    rw [fieldSet_single_str kp fmt hfmt _ t, fieldSet_single_int ky fmt hfmt _ _]
  have hB : dateSetTuple (singleDateField kp ky) fmt (some (y : Int))
      none none t =
      tagStore ky [PyVal.vstr (intToChars (y : Int))]
        (tagStore kp [PyVal.vstr (padLeftZeros 4 (natToChars y))] t) := by
    show fieldSet .tstr [baseStyle ⟨ky, .tstr, none, 2, false⟩] fmt
      (.vint (y : Int))
      (fieldSet .tstr [baseStyle ⟨kp, .tstr, none, 2, false⟩] fmt
        (.vstr (joinChars ['-'] (dateComponents (y : Int) none none))) t) = _
    rw [dateComponents_year_only, fmtZeroPad_natCast]
    rw [show joinChars ['-'] [padLeftZeros 4 (natToChars y)] =
      padLeftZeros 4 (natToChars y) from rfl]
    rw [fieldSet_single_str kp fmt hfmt _ t, fieldSet_single_int ky fmt hfmt _ _]
  have hlookAp : tagLookup kp (dateSetTuple (singleDateField kp ky) fmt
      (some (y : Int)) (some (m : Int)) (some (d : Int)) t) =
      some [PyVal.vstr (padLeftZeros 4 (natToChars y) ++ '-' ::
      (padLeftZeros 2 (natToChars m) ++ '-' :: padLeftZeros 2 (natToChars d)))] := by
    rw [hA, tagLookup_tagStore_other kp ky hk2, tagLookup_tagStore_self]
  have hlookBp : tagLookup kp (dateSetTuple (singleDateField kp ky) fmt
      (some (y : Int)) none none t) =
      some [PyVal.vstr (padLeftZeros 4 (natToChars y))] := by
    rw [hB, tagLookup_tagStore_other kp ky hk2, tagLookup_tagStore_self]
  have hSfullne : (padLeftZeros 4 (natToChars y) ++ '-' ::
      (padLeftZeros 2 (natToChars m) ++ '-' :: padLeftZeros 2 (natToChars d))) ≠ [] := by
    intro hnil
    exact hSAne (List.append_eq_nil.mp hnil).1
  have htimeFull : ∀ c ∈ (padLeftZeros 4 (natToChars y) ++ '-' ::
      (padLeftZeros 2 (natToChars m) ++ '-' :: padLeftZeros 2 (natToChars d))),
      (fun c => !isTimeStart c) c = true := by
    intro c hc
    have hts : isTimeStart c = false := by
      rcases List.mem_append.mp hc with h1 | h1
      · exact digit_not_timeStart c (hdigA c h1)
      · rcases List.mem_cons.mp h1 with rfl | h2
        · rfl
        · rcases List.mem_append.mp h2 with h3 | h3
          · exact digit_not_timeStart c (hdigB c h3)
          · rcases List.mem_cons.mp h3 with rfl | h4
            · rfl
            · exact digit_not_timeStart c (hdigC c h4)
    simp [hts]
  have htimeA : ∀ c ∈ padLeftZeros 4 (natToChars y),
      (fun c => !isTimeStart c) c = true := by
    intro c hc
    simp [digit_not_timeStart c (hdigA c hc)]
  have hsplitFull : splitPred isDateSep (padLeftZeros 4 (natToChars y) ++ '-' ::
      (padLeftZeros 2 (natToChars m) ++ '-' :: padLeftZeros 2 (natToChars d))) =
      [padLeftZeros 4 (natToChars y), padLeftZeros 2 (natToChars m),
        padLeftZeros 2 (natToChars d)] := by
    rw [splitPred_append_sep isDateSep _
        (fun c hc => digit_not_dateSep c (hdigA c hc)) '-' rfl _,
      splitPred_append_sep isDateSep _
        (fun c hc => digit_not_dateSep c (hdigB c hc)) '-' rfl _,
      splitPred_of_no_sep isDateSep _
        (fun c hc => digit_not_dateSep c (hdigC c hc))]
  have hbf : ∀ (V : PyVal) (o2 o3 : Option (List Char)),
      backfillYear V [some (padLeftZeros 4 (natToChars y)), o2, o3] =
        [some (padLeftZeros 4 (natToChars y)), o2, o3] := by
    intro V o2 o3
    unfold backfillYear
    rw [if_pos]
    show itemTruthy (some (padLeftZeros 4 (natToChars y))) = true
    show (!(padLeftZeros 4 (natToChars y)).isEmpty) = true
    rw [hSAemp]
    rfl
  have htupleA : dateGetTuple (singleDateField kp ky) fmt
      (dateSetTuple (singleDateField kp ky) fmt (some (y : Int))
        (some (m : Int)) (some (d : Int)) t) =
      [some ((y : Int)), some ((m : Int)), some ((d : Int))] := by
    unfold dateGetTuple
    rw [show (singleDateField kp ky).dateStyles =
        [baseStyle ⟨kp, PyType.tstr, none, 2, false⟩] from rfl,
      show (singleDateField kp ky).yearStyles =
        [baseStyle ⟨ky, PyType.tstr, none, 2, false⟩] from rfl]
    rw [fieldGet_single_str kp fmt hfmt _ hSfullne _ hlookAp]
    have hitems : dateItemsOf (PyVal.vstr (padLeftZeros 4 (natToChars y) ++
        '-' :: (padLeftZeros 2 (natToChars m) ++ '-' ::
          padLeftZeros 2 (natToChars d)))) =
        [some (padLeftZeros 4 (natToChars y)),
          some (padLeftZeros 2 (natToChars m)),
          some (padLeftZeros 2 (natToChars d))] := by
      show (splitPred isDateSep ((padLeftZeros 4 (natToChars y) ++
          '-' :: (padLeftZeros 2 (natToChars m) ++ '-' ::
            padLeftZeros 2 (natToChars d))).takeWhile
          (fun c => !isTimeStart c))).map some = _
      rw [takeWhile_eq_self_of_all _ _ htimeFull, hsplitFull]
      rfl
    rw [hitems]
    rw [show padThree [some (padLeftZeros 4 (natToChars y)),
        some (padLeftZeros 2 (natToChars m)),
        some (padLeftZeros 2 (natToChars d))] =
      [some (padLeftZeros 4 (natToChars y)),
        some (padLeftZeros 2 (natToChars m)),
        some (padLeftZeros 2 (natToChars d))] from rfl]
    rw [hbf]
    show [pyIntOfChars (padLeftZeros 4 (natToChars y)),
      pyIntOfChars (padLeftZeros 2 (natToChars m)),
      pyIntOfChars (padLeftZeros 2 (natToChars d))] = _
    rw [pyIntOfChars_pad, pyIntOfChars_pad, pyIntOfChars_pad]
  have htupleB : dateGetTuple (singleDateField kp ky) fmt
      (dateSetTuple (singleDateField kp ky) fmt (some (y : Int)) none none t) =
      [some ((y : Int)), none, none] := by
    unfold dateGetTuple
    rw [show (singleDateField kp ky).dateStyles =
        [baseStyle ⟨kp, PyType.tstr, none, 2, false⟩] from rfl,
      show (singleDateField kp ky).yearStyles =
        [baseStyle ⟨ky, PyType.tstr, none, 2, false⟩] from rfl]
    rw [fieldGet_single_str kp fmt hfmt _ hSAne _ hlookBp]
    have hitems : dateItemsOf (PyVal.vstr (padLeftZeros 4 (natToChars y))) =
        [some (padLeftZeros 4 (natToChars y))] := by
      show (splitPred isDateSep ((padLeftZeros 4 (natToChars y)).takeWhile
          (fun c => !isTimeStart c))).map some = _
      rw [takeWhile_eq_self_of_all _ _ htimeA,
        splitPred_of_no_sep isDateSep _
          (fun c hc => digit_not_dateSep c (hdigA c hc))]
      rfl
    rw [hitems]
    rw [show padThree [some (padLeftZeros 4 (natToChars y))] =
      [some (padLeftZeros 4 (natToChars y)), none, none] from rfl]
    rw [hbf]
    show [pyIntOfChars (padLeftZeros 4 (natToChars y)), none, none] = _
    rw [pyIntOfChars_pad]
  refine ⟨hlookAp, ?_, ?_, ?_, ?_, hlookBp, ?_, ?_, ?_⟩
  · rw [hA, tagLookup_tagStore_self]
  · unfold dateItemGet
    rw [htupleA]
    rfl
  · unfold dateItemGet
    rw [htupleA]
    rfl
  · unfold dateItemGet
    rw [htupleA]
    rfl
  · unfold dateItemGet
    rw [htupleB]
    rfl
  · unfold dateItemGet
    rw [htupleB]
    rfl
  · unfold dateItemGet
    rw [htupleB]
    rfl

/-- Witness: the date round trip at year 2020, month 5, day 1 over distinct
    primary and legacy year keys. -/
theorem C4_date_field_roundtrip_witness :
    dateItemGet (singleDateField ['D'] ['Y']) 1 (("FLAC").data)
      (dateSetTuple (singleDateField ['D'] ['Y']) (("FLAC").data)
        (some ((2020 : Nat) : Int)) (some ((5 : Nat) : Int))
        (some ((1 : Nat) : Int)) []) = some (((5 : Nat) : Int)) :=
  (C4_date_field_roundtrip ['D'] ['Y'] (("FLAC").data) [] 2020 5 1
    (by decide) (by decide) (by decide) (by decide)).2.2.2.1

/-- Units produced for one character are always below 2 to the 16. -/
theorem utf16Units_lt (c : Char) : ∀ u ∈ utf16Units c, u < 65536 := by
  intro u hu
  have hv : c.toNat < 55296 ∨ (57344 ≤ c.toNat ∧ c.toNat < 1114112) := c.valid
  simp only [utf16Units] at hu
  split at hu
  · rw [List.mem_singleton] at hu
    omega
  · rcases List.mem_pair.mp hu with h1 | h1 <;> omega

/-- Units produced for a character other than the null character are
    nonzero. -/
theorem utf16Units_ne_zero (c : Char) (hc : c.toNat ≠ 0) :
    ∀ u ∈ utf16Units c, u ≠ 0 := by
  intro u hu
  simp only [utf16Units] at hu
  split at hu
  · rw [List.mem_singleton] at hu
    omega
  · rcases List.mem_pair.mp hu with h1 | h1 <;> omega

/-- The encoder equals byte-flattening of the unit stream. -/
theorem encodeUtf16le_eq (cs : List Char) :
    encodeUtf16le cs = ((cs.map utf16Units).flatten.map unitBytes).flatten := by
  induction cs with
  | nil => rfl
  | cons c cs ih =>
    show ((utf16Units c).map unitBytes).flatten ++ encodeUtf16le cs = _
    rw [ih, show ((c :: cs).map utf16Units).flatten =
        utf16Units c ++ (cs.map utf16Units).flatten from rfl,
      List.map_append, List.flatten_append]

/-- Every unit of an encoded null-free string is nonzero and below 2 to
    the 16. -/
theorem encode_units_sound (cs : List Char) (h : ∀ c ∈ cs, c.toNat ≠ 0) :
    ∀ u ∈ (cs.map utf16Units).flatten, u ≠ 0 ∧ u < 65536 := by
  intro u hu
  rw [List.mem_flatten] at hu
  obtain ⟨l, hl, hul⟩ := hu
  rw [List.mem_map] at hl
  obtain ⟨c, hc, rfl⟩ := hl
  exact ⟨utf16Units_ne_zero c (h c hc) u hul, utf16Units_lt c u hul⟩

/-- One step of the double-null scan on a pair that is not the
    terminator. -/
theorem scanDoubleNull_cons (b0 b1 : Nat) (tl : List Nat)
    (h : ¬(b0 = 0 ∧ b1 = 0)) :
    scanDoubleNull (b0 :: b1 :: tl) =
      (scanDoubleNull tl).map (fun pr => (b0 :: b1 :: pr.1, pr.2)) := by
  match b0, b1 with
  | 0, 0 => exact absurd ⟨rfl, rfl⟩ h
  | 0, n + 1 => rfl
  | m + 1, n => rfl

/-- The double-null scan walks over the byte pairs of nonzero units and
    stops exactly at the appended terminator. -/
theorem scanDoubleNull_units (us : List Nat)
    (h : ∀ u ∈ us, u ≠ 0 ∧ u < 65536) (rest : List Nat) :
    scanDoubleNull ((us.map unitBytes).flatten ++ 0 :: 0 :: rest) =
      some ((us.map unitBytes).flatten, rest) := by
  induction us with
  | nil => rfl
  | cons u us ih =>
    obtain ⟨hu0, hult⟩ := h u (List.mem_cons_self u us)
    show scanDoubleNull ((u % 256) :: (u / 256 % 256) ::
      ((us.map unitBytes).flatten ++ 0 :: 0 :: rest)) = _
    rw [scanDoubleNull_cons _ _ _ (by omega),
      ih (fun x hx => h x (List.mem_cons_of_mem u hx))]
    rfl

/-- The double-null scan recovers exactly the encoding of a null-free
    string. -/
theorem scanDoubleNull_encode (cs : List Char) (h : ∀ c ∈ cs, c.toNat ≠ 0)
    (rest : List Nat) :
    scanDoubleNull (encodeUtf16le cs ++ 0 :: 0 :: rest) =
      some (encodeUtf16le cs, rest) := by
  rw [encodeUtf16le_eq]
  exact scanDoubleNull_units _ (encode_units_sound cs h) rest

/-- Byte pairing inverts byte production on units below 2 to the 16. -/
theorem bytesToUnits_flatten (us : List Nat) (h : ∀ u ∈ us, u < 65536) :
    bytesToUnits ((us.map unitBytes).flatten) = some us := by
  induction us with
  | nil => rfl
  | cons u us ih =>
    show bytesToUnits ((u % 256) :: (u / 256 % 256) ::
      ((us.map unitBytes).flatten)) = _
    rw [show bytesToUnits ((u % 256) :: (u / 256 % 256) ::
        ((us.map unitBytes).flatten)) =
      (bytesToUnits ((us.map unitBytes).flatten)).map
        (fun vs => (u % 256 + 256 * (u / 256 % 256)) :: vs) from rfl]
    rw [ih (fun v hv => h v (List.mem_cons_of_mem u hv))]
    show some ((u % 256 + 256 * (u / 256 % 256)) :: us) = some (u :: us)
    have hrec : u % 256 + 256 * (u / 256 % 256) = u := by
      have := h u (List.mem_cons_self u us)
      omega
    rw [hrec]

/-- Decoding one unit that is a basic-plane non-surrogate value. -/
theorem unitsToChars_cons_bmp (v : Nat) (T : List Nat)
    (h : v < 55296 ∨ (57344 ≤ v ∧ v < 65536)) :
    unitsToChars (v :: T) =
      (unitsToChars T).map (fun cs => Char.ofNat v :: cs) := by
  unfold unitsToChars
  rw [if_pos (by
    simp only [Bool.or_eq_true, Bool.and_eq_true, decide_eq_true_eq]
    omega)]
  rw [unitsToChars.eq_def]

/-- Decoding a well-formed surrogate pair. -/
theorem unitsToChars_cons_pair (hi lo : Nat) (T : List Nat)
    (h1 : 55296 ≤ hi) (h2 : hi < 56320) (h3 : 56320 ≤ lo) (h4 : lo < 57344) :
    unitsToChars (hi :: lo :: T) =
      (unitsToChars T).map (fun cs =>
        Char.ofNat (65536 + (hi - 55296) * 1024 + (lo - 56320)) :: cs) := by
  unfold unitsToChars
  rw [if_neg (by
      simp only [Bool.or_eq_true, Bool.and_eq_true, decide_eq_true_eq]
      omega),
    if_pos (by
      simp only [Bool.and_eq_true, decide_eq_true_eq]
      omega)]
  show (if 56320 ≤ lo && lo < 57344 then
      (unitsToChars T).map (fun cs =>
        Char.ofNat (65536 + (hi - 55296) * 1024 + (lo - 56320)) :: cs)
    else none) = _
  rw [if_pos (by
    simp only [Bool.and_eq_true, decide_eq_true_eq]
    omega)]
  rw [unitsToChars.eq_def]

/-- Unit decoding inverts unit production on every character list. -/
theorem unitsToChars_flatten (cs : List Char) :
    unitsToChars ((cs.map utf16Units).flatten) = some cs := by
  induction cs with
  | nil => rfl
  | cons c cs ih =>
    have hv : c.toNat < 55296 ∨ (57344 ≤ c.toNat ∧ c.toNat < 1114112) :=
      c.valid
    show unitsToChars (utf16Units c ++ (cs.map utf16Units).flatten) = _
    by_cases hb : c.toNat < 65536
    · rw [show utf16Units c = [c.toNat] from by simp [utf16Units, hb]]
      show unitsToChars (c.toNat :: (cs.map utf16Units).flatten) = _
      rw [unitsToChars_cons_bmp _ _ (by omega), ih]
      simp [Char.ofNat_toNat]
    · rw [show utf16Units c = [55296 + (c.toNat - 65536) / 1024,
          56320 + (c.toNat - 65536) % 1024] from by simp [utf16Units, hb]]
      show unitsToChars ((55296 + (c.toNat - 65536) / 1024) ::
        (56320 + (c.toNat - 65536) % 1024) ::
        (cs.map utf16Units).flatten) = _
      rw [unitsToChars_cons_pair _ _ _ (by omega) (by omega) (by omega)
        (by omega), ih]
      show some (Char.ofNat (65536 +
          ((55296 + (c.toNat - 65536) / 1024) - 55296) * 1024 +
          ((56320 + (c.toNat - 65536) % 1024) - 56320)) :: cs) =
        some (c :: cs)
      rw [show 65536 + ((55296 + (c.toNat - 65536) / 1024) - 55296) * 1024 +
          ((56320 + (c.toNat - 65536) % 1024) - 56320) = c.toNat from by omega,
        Char.ofNat_toNat]

/-- The UTF-16LE codec pair of the embedding round-trips every string. -/
theorem decodeUtf16le_encode (cs : List Char) :
    decodeUtf16le (encodeUtf16le cs) = some cs := by
  have hlt : ∀ u ∈ (cs.map utf16Units).flatten, u < 65536 := by
    intro u hu
    rw [List.mem_flatten] at hu
    obtain ⟨l, hl, hul⟩ := hu
    rw [List.mem_map] at hl
    obtain ⟨c, hc, rfl⟩ := hl
    exact utf16Units_lt c u hul
  unfold decodeUtf16le
  rw [encodeUtf16le_eq, bytesToUnits_flatten _ hlt]
  show unitsToChars ((cs.map utf16Units).flatten) = some cs
  exact unitsToChars_flatten cs

/-- A Python slice that starts at the length of the first part of an
    appended list and spans the length of the second part returns the
    second part. -/
theorem pySlice_of_len {α : Type} (A B : List α) (a b : Int)
    (ha : a = (A.length : Int)) (hb : b = (A.length : Int) + (B.length : Int)) :
    pySlice (A ++ B) a b = B := by
  subst ha hb
  simp only [pySlice, List.length_append, Nat.cast_add]
  rw [if_neg (by omega), if_neg (by omega), min_self,
    min_eq_left (by omega : (A.length : Int) ≤ (A.length : Int) + B.length)]
  rw [show ((A.length : Int) + (B.length : Int)).toNat = A.length + B.length
      from by omega,
    show ((A.length : Int)).toNat = A.length from by omega]
  rw [← List.length_append A B, List.take_length, List.drop_left]

/-- Unpacking one record whose scans and decodes all succeed. -/
theorem unpackAsfImage_cons (b0 b1 b2 b3 b4 : Nat)
    (rest mb rest1 db rest2 : List Nat) (mime desc : List Char)
    (h1 : scanDoubleNull rest = some (mb, rest1))
    (h2 : scanDoubleNull rest1 = some (db, rest2))
    (h3 : decodeUtf16le mb = some mime)
    (h4 : decodeUtf16le db = some desc) :
    unpackAsfImage (b0 :: b1 :: b2 :: b3 :: b4 :: rest) =
      some (mime,
        pySlice (b0 :: b1 :: b2 :: b3 :: b4 :: rest)
          (5 + mb.length + 2 + db.length + 2)
          (5 + mb.length + 2 + db.length + 2 +
            sint32OfNat (b1 + 256 * b2 + 65536 * b3 + 16777216 * b4)),
        sbyteOfNat b0, desc) := by
  simp only [unpackAsfImage, h1, h2, h3, h4]

/-- Counterexample to C8 as stated: a MIME string containing the null
    character encodes to UTF-16LE bytes that contain the double-null
    terminator, so the unpacker cuts the MIME run short and misreads every
    later field; the round trip returns an empty MIME type, a shifted
    payload and an empty description instead of the packed values. -/
theorem C8_counterexample :
    (packAsfImage [Char.ofNat 0] [1, 2] 3 []).bind unpackAsfImage =
      some ([], [0, 0], 3, []) ∧
    (packAsfImage [Char.ofNat 0] [1, 2] 3 []).bind unpackAsfImage ≠
      some ([Char.ofNat 0], [1, 2], 3, []) := by
  decide

/-- C8 (amended): packing and unpacking the attribute-family image layout
    round-trips the MIME type, payload, type code and description whenever
    the MIME and description strings are free of the null character, the
    type code fits a signed byte and the payload length fits a signed
    32-bit integer. -/
theorem C8_asf_image_roundtrip (mime desc : List Char) (data : List Nat)
    (ty : Int) (hmime : ∀ c ∈ mime, c.toNat ≠ 0)
    (hdesc : ∀ c ∈ desc, c.toNat ≠ 0)
    (htyl : -128 ≤ ty) (htyh : ty ≤ 127)
    (hsize : (data.length : Int) < 2 ^ 31) :
    (packAsfImage mime data ty desc).bind unpackAsfImage =
      some (mime, data, ty, desc) := by
  unfold packAsfImage packTypeSize
  rw [if_pos ⟨htyl, htyh, hsize⟩]
  show unpackAsfImage (((((((ty % 256).toNat :: leBytes4 data.length) ++
      encodeUtf16le mime) ++ [0, 0]) ++ encodeUtf16le desc) ++ [0, 0]) ++
        data) =
    some (mime, data, ty, desc)
  rw [show (((((((ty % 256).toNat :: leBytes4 data.length) ++
        encodeUtf16le mime) ++ [0, 0]) ++ encodeUtf16le desc) ++ [0, 0]) ++
          data) =
      (ty % 256).toNat :: (data.length % 256) :: (data.length / 256 % 256) ::
        (data.length / 65536 % 256) :: (data.length / 16777216 % 256) ::
        (encodeUtf16le mime ++ 0 :: 0 ::
          (encodeUtf16le desc ++ 0 :: 0 :: data)) from by
    simp [leBytes4]]
  rw [unpackAsfImage_cons _ _ _ _ _ _ _ _ _ _ mime desc
    (scanDoubleNull_encode mime hmime _) (scanDoubleNull_encode desc hdesc _)
    (decodeUtf16le_encode mime) (decodeUtf16le_encode desc)]
  have hsz : data.length < 4294967296 := by
    have hcopy := hsize
    norm_num at hcopy
    omega
  rw [show data.length % 256 + 256 * (data.length / 256 % 256) +
      65536 * (data.length / 65536 % 256) +
      16777216 * (data.length / 16777216 % 256) = data.length from by omega]
  rw [show sint32OfNat data.length = ((data.length : Int)) from by
    unfold sint32OfNat
    rw [if_pos hsize]]
  rw [show sbyteOfNat ((ty % 256).toNat) = ty from by
    unfold sbyteOfNat
    split_ifs with h <;> omega]
  rw [show (ty % 256).toNat :: (data.length % 256) ::
      (data.length / 256 % 256) :: (data.length / 65536 % 256) ::
      (data.length / 16777216 % 256) ::
      (encodeUtf16le mime ++ 0 :: 0 ::
        (encodeUtf16le desc ++ 0 :: 0 :: data)) =
    ((ty % 256).toNat :: (data.length % 256) ::
      (data.length / 256 % 256) :: (data.length / 65536 % 256) ::
      (data.length / 16777216 % 256) ::
      (encodeUtf16le mime ++ 0 :: 0 ::
        (encodeUtf16le desc ++ [0, 0]))) ++ data from by simp]
  rw [pySlice_of_len _ _ _ _
    (by
      simp only [List.length_cons, List.length_append, List.length_nil]
      push_cast
      ring)
    (by
      simp only [List.length_cons, List.length_append, List.length_nil]
      push_cast
      ring)]

/-- Witness: the round trip at MIME a, payload of two bytes, type 3 and an
    empty description. -/
theorem C8_asf_image_roundtrip_witness :
    (packAsfImage ['a'] [1, 2] 3 []).bind unpackAsfImage =
      some (['a'], [1, 2], 3, []) :=
  C8_asf_image_roundtrip ['a'] [] [1, 2] 3 (by decide) (by decide)
    (by norm_num) (by norm_num) (by norm_num)

/-- A mapM over the Option monad on a list all of whose reads succeed
    returns the per-element reads in order. -/
theorem mapM_option_all_some {α β : Type} (f : α → Option β) (d : β) :
    ∀ l : List α, (∀ a ∈ l, (f a).isSome = true) →
      l.mapM f = some (l.map fun a => (f a).getD d)
  | [], _ => rfl
  | a :: l, h => by
    obtain ⟨b, hb⟩ := Option.isSome_iff_exists.mp (h a (List.mem_cons_self a l))
    rw [List.mapM_cons, hb,
      mapM_option_all_some f d l (fun x hx => h x (List.mem_cons_of_mem a hx))]
    simp [hb]

/-- A mapM over the Option monad aborts with none as soon as any element
    read fails. -/
theorem mapM_option_none_of_mem {α β : Type} (f : α → Option β) :
    ∀ l : List α, (∃ a ∈ l, f a = none) → l.mapM f = none
  | [], h => by simp at h
  | a :: l, h => by
    obtain ⟨x, hx, hfx⟩ := h
    rcases List.mem_cons.mp hx with heq | hmem
    · subst heq
      rw [List.mapM_cons, hfx]
      rfl
    · rw [List.mapM_cons, mapM_option_none_of_mem f l ⟨x, hmem, hfx⟩]
      cases hfa : f a <;> rfl

/-- Counterexample to C3 as stated: a stored image list holding two
    well-formed records around one malformed record (a single byte, which
    makes struct.unpack_from raise) reads as a hard failure of the whole
    list, not as the two well-formed images; the well-formed record alone
    does decode. -/
theorem C3_counterexample :
    asfImageGetList [[3, 1, 0, 0, 0, 97, 0, 0, 0, 0, 0, 1], [0],
        [3, 1, 0, 0, 0, 97, 0, 0, 0, 0, 0, 1]] = none ∧
    asfImageDeserialize [3, 1, 0, 0, 0, 97, 0, 0, 0, 0, 0, 1] =
      some (ImageModel.mk [1] (some []) (some 3)) := by
  decide

/-- C3 (amended): the attribute-family image-list read is all-or-nothing
    rather than skip-the-bad-record: when every stored record unpacks, the
    read returns the per-record images in order, and when any single record
    is malformed the exception aborts the whole read. -/
theorem C3_image_list_read (raws : List (List Nat)) :
    ((∀ r ∈ raws, (asfImageDeserialize r).isSome = true) →
      asfImageGetList raws =
        some (raws.map fun r =>
          (asfImageDeserialize r).getD ⟨[], none, none⟩)) ∧
    ((∃ r ∈ raws, asfImageDeserialize r = none) →
      asfImageGetList raws = none) := by
  constructor
  · intro h
    exact mapM_option_all_some asfImageDeserialize ⟨[], none, none⟩ raws h
  · intro h
    exact mapM_option_none_of_mem asfImageDeserialize raws h

/-- Witness: a list of one well-formed record reads as its one image, and
    appending a malformed single-byte record makes the whole read fail. -/
theorem C3_image_list_read_witness :
    asfImageGetList [[3, 1, 0, 0, 0, 97, 0, 0, 0, 0, 0, 1]] =
      some [ImageModel.mk [1] (some []) (some 3)] ∧
    asfImageGetList [[3, 1, 0, 0, 0, 97, 0, 0, 0, 0, 0, 1], [0]] = none := by
  constructor
  · rw [(C3_image_list_read [[3, 1, 0, 0, 0, 97, 0, 0, 0, 0, 0, 1]]).1
      (by decide)]
    decide
  · exact (C3_image_list_read [[3, 1, 0, 0, 0, 97, 0, 0, 0, 0, 0, 1], [0]]).2
      ⟨[0], by decide, by decide⟩

/-- Counterexample to C5 as stated: the length property has no attribute
    guard, so on a container whose codec info lacks a duration both the
    duration read and the bit-rate fallback raise AttributeError instead of
    returning a zero value. -/
theorem C5_counterexample :
    mfLength ⟨⟨none, none, none, none, none, none, none, none⟩, 1000,
      (("flac").data)⟩ = .error () ∧
    mfBitrate ⟨⟨none, none, none, none, none, none, none, none⟩, 1000,
      (("flac").data)⟩ = .error () := ⟨rfl, rfl⟩

/-- C5 (amended): on a container whose codec info reports a duration, the
    derived audio properties never raise: the duration reads back exactly;
    when the codec reports no bit rate (or a falsy zero one) the bit rate
    is the truncated quotient of the size in bits by the duration, 0 for a
    zero duration; an explicitly reported nonzero bit rate wins; and every
    property without a codec attribute returns its type's zero value
    (sample rate 0, or 48000 for the opus family; bit depth, channels 0;
    bit-rate mode, encoder info, encoder settings empty). -/
theorem C5_audio_properties (m : MFile) (l : ℚ) (hl : m.info.length = some l) :
    mfLength m = .ok l ∧
    ((m.info.bitrate = none ∨ m.info.bitrate = some 0) →
      mfBitrate m = .ok (if l = 0 then 0
        else ratTrunc (m.filesize * 8 / l))) ∧
    (∀ b : Int, m.info.bitrate = some b → b ≠ 0 → mfBitrate m = .ok b) ∧
    (m.info.sampleRate = none → m.ftype ≠ (("opus").data) →
      mfSamplerate m = 0) ∧
    (m.info.sampleRate = none → m.ftype = (("opus").data) →
      mfSamplerate m = 48000) ∧
    (m.info.bitsPerSample = none → mfBitdepth m = 0) ∧
    (m.info.channels = none → mfChannels m = 0) ∧
    (m.info.bitrateMode = none → mfBitrateMode m = []) ∧
    (m.info.encoderInfo = none → mfEncoderInfo m = []) ∧
    (m.info.encoderSettings = none → mfEncoderSettings m = []) := by
  refine ⟨?_, ?_, ?_, ?_, ?_, ?_, ?_, ?_, ?_, ?_⟩
  · unfold mfLength
    rw [hl]
  · intro hbr
    unfold mfBitrate mfBitrateFallback
    rcases hbr with h | h
    · rw [h, hl]
      show (if l = 0 then (Except.ok 0 : Except Unit Int)
          else Except.ok (ratTrunc (m.filesize * 8 / l))) =
        Except.ok (if l = 0 then 0 else ratTrunc (m.filesize * 8 / l))
      split_ifs with h0 <;> rfl
    · rw [h, hl]
      show (if (0 : Int) ≠ 0 then (Except.ok (0 : Int) : Except Unit Int)
          else if l = 0 then Except.ok 0
            else Except.ok (ratTrunc (m.filesize * 8 / l))) =
        Except.ok (if l = 0 then 0 else ratTrunc (m.filesize * 8 / l))
      rw [if_neg (show ¬((0 : Int) ≠ 0) from fun hc => hc rfl)]
      split_ifs with h0 <;> rfl
  · intro b hb hbne
    unfold mfBitrate
    rw [hb]
    show (if b ≠ 0 then (Except.ok b : Except Unit Int)
        else mfBitrateFallback m) = Except.ok b
    rw [if_pos hbne]
  · intro hs hopus
    unfold mfSamplerate
    rw [hs]
    show (if m.ftype == (("opus").data) then (48000 : Int) else 0) = 0
    rw [if_neg (show ¬((m.ftype == (("opus").data)) = true) from
      fun hc => hopus (by simpa using hc))]
  · intro hs hopus
    unfold mfSamplerate
    rw [hs]
    show (if m.ftype == (("opus").data) then (48000 : Int) else 0) = 48000
    rw [if_pos (show (m.ftype == (("opus").data)) = true by
      simpa using hopus)]
  · intro h
    unfold mfBitdepth
    rw [h]
    rfl
  · intro h
    unfold mfChannels
    rw [h]
    rfl
  · intro h
    unfold mfBitrateMode
    rw [h]
  · intro h
    unfold mfEncoderInfo
    rw [h]
    rfl
  · intro h
    unfold mfEncoderSettings
    rw [h]
    rfl

/-- Witness: a lossless container of 1000 bytes with a reported duration of
    2 seconds and no reported bit rate reads length 2, bit rate 4000 and
    sample rate 0. -/
theorem C5_audio_properties_witness :
    mfLength ⟨⟨some 2, none, none, none, none, none, none, none⟩, 1000,
      (("flac").data)⟩ = .ok 2 ∧
    mfBitrate ⟨⟨some 2, none, none, none, none, none, none, none⟩, 1000,
      (("flac").data)⟩ = .ok (4000 : Int) ∧
    mfSamplerate ⟨⟨some 2, none, none, none, none, none, none, none⟩, 1000,
      (("flac").data)⟩ = 0 := by
  have h := C5_audio_properties
    ⟨⟨some 2, none, none, none, none, none, none, none⟩, 1000,
      (("flac").data)⟩ 2 rfl
  refine ⟨h.1, ?_, h.2.2.2.1 rfl (by decide)⟩
  rw [h.2.1 (Or.inl rfl)]
  show Except.ok (if (2 : ℚ) = 0 then 0
      else ratTrunc ((1000 : ℚ) * 8 / 2)) = Except.ok (4000 : Int)
  rw [if_neg (show ¬(2 : ℚ) = 0 by norm_num),
    show ((1000 : ℚ) * 8 / 2) = (((4000 : Int) : ℚ)) by norm_num]
  unfold ratTrunc
  rw [if_neg (show ¬(((4000 : Int) : ℚ)) < 0 by norm_num),
    ratFloor_eq_intFloor, Int.floor_intCast]

/-- Python round on a real is within one half of its argument. -/
theorem pyRoundR_close (x : ℝ) : |(pyRoundR x : ℝ) - x| ≤ 1 / 2 := by
  have h1 := Int.floor_le x
  have h2 := Int.lt_floor_add_one x
  unfold pyRoundR
  split_ifs with ha hb hc <;>
    (rw [abs_le]; constructor <;> push_cast <;> linarith)

/-- Python round never goes below the floor. -/
theorem pyRoundR_ge_floor (x : ℝ) : ⌊x⌋ ≤ pyRoundR x := by
  unfold pyRoundR
  split_ifs <;> omega

/-- Python round of a nonnegative real is nonnegative. -/
theorem pyRoundR_nonneg (x : ℝ) (hx : 0 ≤ x) : 0 ≤ pyRoundR x :=
  le_trans (Int.floor_nonneg.mpr hx) (pyRoundR_ge_floor x)

/-- Rounding to n decimal places moves a real by at most half a unit in
    the last place. -/
theorem pyRoundAt_close (n : Nat) (x : ℝ) :
    |pyRoundAt n x - x| ≤ 1 / (2 * 10 ^ n) := by
  have hpow : (0 : ℝ) < 10 ^ n := by positivity
  have h := pyRoundR_close (x * 10 ^ n)
  unfold pyRoundAt
  rw [show (pyRoundR (x * 10 ^ n) : ℝ) / 10 ^ n - x =
      ((pyRoundR (x * 10 ^ n) : ℝ) - x * 10 ^ n) / 10 ^ n from by
    field_simp
    ring]
  rw [abs_div, abs_of_pos hpow,
    show (1 : ℝ) / (2 * 10 ^ n) = (1 / 2) / 10 ^ n from by ring]
  exact (div_le_div_right hpow).mpr h

/-- Python int() on a nonnegative real is the floor. -/
theorem truncR_floor (w : ℝ) (hw : 0 ≤ w) : truncR w = ⌊w⌋ := by
  unfold truncR
  rw [if_neg (by linarith)]

/-- A positive real whose fifth power is at most ten is at most ten to
    the one fifth. -/
theorem rpow_fifth_ge (c : ℝ) (hc : 0 < c) (h : c ^ (5 : ℕ) ≤ 10) :
    c ≤ (10 : ℝ) ^ ((1 : ℝ) / 5) := by
  have h10 : ((10 : ℝ) ^ ((1 : ℝ) / 5)) ^ (5 : ℕ) = 10 := by
    rw [← Real.rpow_natCast ((10 : ℝ) ^ ((1 : ℝ) / 5)) 5,
      ← Real.rpow_mul (by norm_num)]
    norm_num
  have hle : c ^ (5 : ℕ) ≤ ((10 : ℝ) ^ ((1 : ℝ) / 5)) ^ (5 : ℕ) := by
    rw [h10]
    exact h
  exact le_of_pow_le_pow_left (by norm_num) (by positivity) hle

/-- The encoder written out on its ten slots. -/
theorem scEncode_explicit (gain peak : ℝ) :
    scEncode gain peak =
      [orOne (min (pyRoundR (pow10 (gain / (-10)) * 1000)) 65534),
        orOne (min (pyRoundR (pow10 (gain / (-10)) * 1000)) 65534),
        orOne (min (pyRoundR (pow10 (gain / (-10)) * 2500)) 65534),
        orOne (min (pyRoundR (pow10 (gain / (-10)) * 2500)) 65534),
        0, 0, truncR (peak * 32768), truncR (peak * 32768), 0, 0] := rfl

/-- The decoded gain on an explicit ten-slot list. -/
theorem scDecode_fst (a b c d e f g h i j : Int) :
    (scDecode [a, b, c, d, e, f, g, h, i, j]).1 =
      pyRoundAt 2 (if 0 < max a b then
        log10 (((max a b : Int) : ℝ) / 1000) * (-10) else 0) := rfl

/-- The decoded peak on an explicit ten-slot list. -/
theorem scDecode_snd (a b c d e f g h i j : Int) :
    (scDecode [a, b, c, d, e, f, g, h, i, j]).2 =
      pyRoundAt 6 (((max g h : Int) : ℝ) / 32768) := rfl

/-- The clamped magnitude always lands in the interval from 1 to 65534. -/
theorem orOne_min_bounds (n : Int) (hn : 0 ≤ n) :
    1 ≤ orOne (min n 65534) ∧ orOne (min n 65534) ≤ 65534 := by
  unfold orOne
  split_ifs with h <;> omega

/-- The gain side of the round trip: a magnitude within the rounding and
    clamping error of a reference value between 1 and 100000 decodes to
    within 2.01 dB of the encoded gain. -/
theorem sc_gain_bound (g x : ℝ) (hx1 : 1 ≤ x) (hx2 : x ≤ 100000)
    (hgx : g = (-10) * log10 (x / 1000)) :
    |pyRoundAt 2 (if 0 < orOne (min (pyRoundR x) 65534) then
        log10 ((orOne (min (pyRoundR x) 65534) : ℝ) / 1000) * (-10)
      else 0) - g| ≤ 2.01 := by
  have hxpos : (0 : ℝ) < x := by linarith
  have hx0 : x ≠ 0 := ne_of_gt hxpos
  have hn1 : 1 ≤ pyRoundR x :=
    le_trans (by rw [Int.le_floor]; exact_mod_cast hx1) (pyRoundR_ge_floor x)
  have hclose := pyRoundR_close x
  have hcl := abs_le.mp hclose
  set n : ℤ := orOne (min (pyRoundR x) 65534) with hn
  have hnbounds : 1 ≤ n ∧ n ≤ 65534 := by
    rw [hn]
    unfold orOne
    split_ifs with h <;> omega
  have hnpos : 0 < n := by omega
  have hnr1 : (1 : ℝ) ≤ (n : ℝ) := by exact_mod_cast hnbounds.1
  have hrlo : 16 / 25 ≤ (n : ℝ) / x := by
    rcases le_or_lt (pyRoundR x) 65534 with hc | hc
    · have hne : n = pyRoundR x := by
        rw [hn, min_eq_left hc]
        unfold orOne
        rw [if_neg (by omega)]
      have hxle : x ≤ (n : ℝ) + 1 / 2 := by
        rw [hne]
        linarith [hcl.1]
      rw [le_div_iff hxpos]
      linarith
    · have hne : n = 65534 := by
        rw [hn, min_eq_right (le_of_lt hc)]
        unfold orOne
        rw [if_neg (by omega)]
      rw [hne, le_div_iff hxpos]
      push_cast
      linarith
  have hrhi : (n : ℝ) / x ≤ 3 / 2 := by
    rcases le_or_lt (pyRoundR x) 65534 with hc | hc
    · have hne : n = pyRoundR x := by
        rw [hn, min_eq_left hc]
        unfold orOne
        rw [if_neg (by omega)]
      have hxge : (n : ℝ) ≤ x + 1 / 2 := by
        rw [hne]
        linarith [hcl.2]
      rw [div_le_iff hxpos]
      linarith
    · have hne : n = 65534 := by
        rw [hn, min_eq_right (le_of_lt hc)]
        unfold orOne
        rw [if_neg (by omega)]
      have hc65 : (65535 : ℝ) ≤ (pyRoundR x : ℝ) := by exact_mod_cast hc
      have hxge : (65534.5 : ℝ) ≤ x := by linarith [hcl.2]
      rw [hne, div_le_iff hxpos]
      push_cast
      linarith
  have hrpos : (0 : ℝ) < (n : ℝ) / x := div_pos (by linarith) hxpos
  rw [if_pos hnpos]
  have hnne : (n : ℝ) / 1000 ≠ 0 := ne_of_gt (by positivity)
  have hxne : x / 1000 ≠ 0 := by positivity
  have hsplit : log10 ((n : ℝ) / x) =
      log10 ((n : ℝ) / 1000) - log10 (x / 1000) := by
    rw [show ((n : ℝ) / x) = ((n : ℝ) / 1000) / (x / 1000) from by
      field_simp]
    unfold log10
    rw [Real.logb_div hnne hxne]
  have hlog : log10 ((n : ℝ) / 1000) * (-10) - g =
      (-10) * log10 ((n : ℝ) / x) := by
    rw [hgx, hsplit]
    ring
  have habs : |log10 ((n : ℝ) / x)| ≤ 1 / 5 := by
    rw [abs_le]
    constructor
    · unfold log10
      rw [Real.le_logb_iff_rpow_le (by norm_num) hrpos]
      have h1 : (10 : ℝ) ^ (-(1 / 5) : ℝ) = ((10 : ℝ) ^ ((1 : ℝ) / 5))⁻¹ :=
        Real.rpow_neg (by norm_num) _
      rw [h1]
      have h2 : (25 / 16 : ℝ) ≤ (10 : ℝ) ^ ((1 : ℝ) / 5) :=
        rpow_fifth_ge _ (by norm_num) (by norm_num)
      have h3 : ((10 : ℝ) ^ ((1 : ℝ) / 5))⁻¹ ≤ ((25 / 16 : ℝ))⁻¹ :=
        inv_le_inv_of_le (by norm_num) h2
      calc ((10 : ℝ) ^ ((1 : ℝ) / 5))⁻¹ ≤ ((25 / 16 : ℝ))⁻¹ := h3
        _ = 16 / 25 := by norm_num
        _ ≤ (n : ℝ) / x := hrlo
    · unfold log10
      rw [Real.logb_le_iff_le_rpow (by norm_num) hrpos]
      calc (n : ℝ) / x ≤ 3 / 2 := hrhi
        _ ≤ (10 : ℝ) ^ ((1 : ℝ) / 5) :=
          rpow_fifth_ge _ (by norm_num) (by norm_num)
  have hcore : |log10 ((n : ℝ) / 1000) * (-10) - g| ≤ 2 := by
    rw [hlog, abs_mul, show |(-10 : ℝ)| = 10 from by norm_num]
    linarith [abs_le.mp habs]
  have hround := pyRoundAt_close 2 (log10 ((n : ℝ) / 1000) * (-10))
  have hr200 : |pyRoundAt 2 (log10 ((n : ℝ) / 1000) * (-10)) -
      log10 ((n : ℝ) / 1000) * (-10)| ≤ 1 / 200 := by
    calc |pyRoundAt 2 (log10 ((n : ℝ) / 1000) * (-10)) -
        log10 ((n : ℝ) / 1000) * (-10)| ≤ 1 / (2 * 10 ^ (2 : ℕ)) := hround
      _ = 1 / 200 := by norm_num
  have htri := abs_sub_le (pyRoundAt 2 (log10 ((n : ℝ) / 1000) * (-10)))
    (log10 ((n : ℝ) / 1000) * (-10)) g
  have hgoal : (2.01 : ℝ) = 201 / 100 := by norm_num
  rw [hgoal]
  linarith

/-- The peak side of the round trip: truncating the 16-bit rescaling and
    rounding to six places moves a nonnegative peak by at most 4e-5. -/
theorem sc_peak_bound (p : ℝ) (hp : 0 ≤ p) :
    |pyRoundAt 6 ((truncR (p * 32768) : ℝ) / 32768) - p| ≤ 4 / 100000 := by
  have hw : (0 : ℝ) ≤ p * 32768 := by positivity
  rw [truncR_floor _ hw]
  have hf1 := Int.floor_le (p * 32768)
  have hf2 := Int.lt_floor_add_one (p * 32768)
  have hnum : |(⌊p * 32768⌋ : ℝ) - p * 32768| ≤ 1 := by
    rw [abs_le]
    constructor <;> push_cast <;> linarith
  have hbase : |(⌊p * 32768⌋ : ℝ) / 32768 - p| ≤ 1 / 32768 := by
    rw [show (⌊p * 32768⌋ : ℝ) / 32768 - p =
        ((⌊p * 32768⌋ : ℝ) - p * 32768) / 32768 from by ring,
      abs_div, show |(32768 : ℝ)| = 32768 from by norm_num]
    exact (div_le_div_right (by norm_num)).mpr hnum
  have hround := pyRoundAt_close 6 ((⌊p * 32768⌋ : ℝ) / 32768)
  norm_num at hround
  have htri := abs_sub_le (pyRoundAt 6 ((⌊p * 32768⌋ : ℝ) / 32768))
    ((⌊p * 32768⌋ : ℝ) / 32768) p
  linarith

/-- Counterexample to C2 as stated: at gain 0 and peak 1/65536, the peak
    rescaling 0.5 truncates to 0, so the decoded peak is 0 and the peak
    error is 1/65536, far above the claimed 1e-6 tolerance. -/
theorem C2_counterexample :
    (scDecode (scEncode 0 (1 / 65536))).2 = 0 ∧
    ¬(|(scDecode (scEncode 0 (1 / 65536))).2 - 1 / 65536| ≤ 1 / 1000000) := by
  have h2 : (scDecode (scEncode 0 (1 / 65536))).2 = 0 := by
    rw [scEncode_explicit, scDecode_snd, max_self]
    rw [show ((1 : ℝ) / 65536 * 32768) = 1 / 2 from by norm_num]
    rw [show truncR ((1 : ℝ) / 2) = 0 from by
      unfold truncR
      rw [if_neg (by norm_num)]
      rw [Int.floor_eq_zero_iff.mpr (by norm_num [Set.mem_Ico])]]
    unfold pyRoundAt pyRoundR
    norm_num
  refine ⟨h2, ?_⟩
  rw [h2, zero_sub, abs_neg, abs_of_nonneg (by norm_num)]
  norm_num

/-- C2 (amended): for gain in the supported window and peak in the unit
    interval, the Sound Check round trip recovers the gain to within 2.01
    dB (the magnitude quantisation alone can move it by up to about 1.8
    dB near the 30 dB end, where the stored magnitude is a small integer)
    and the peak to within 4e-5 (the 16-bit rescaling is truncated, a
    step of 1/32768), and the two reference-scaled magnitudes of the
    encoding are clamped to the interval from 1 to 65534. -/
theorem C2_soundcheck_roundtrip (gain peak : ℝ)
    (hga : -18.2 ≤ gain) (hgb : gain ≤ 30)
    (hpa : 0 ≤ peak) (hpb : peak ≤ 1) :
    |(scDecode (scEncode gain peak)).1 - gain| ≤ 2.01 ∧
    |(scDecode (scEncode gain peak)).2 - peak| ≤ 4 / 100000 ∧
    (1 ≤ (scEncode gain peak).getD 0 0 ∧
      (scEncode gain peak).getD 0 0 ≤ 65534) ∧
    (1 ≤ (scEncode gain peak).getD 2 0 ∧
      (scEncode gain peak).getD 2 0 ≤ 65534) := by
  have h10pos : (0 : ℝ) < pow10 (gain / (-10)) := by
    unfold pow10
    exact Real.rpow_pos_of_pos (by norm_num) _
  have hx1 : (1 : ℝ) ≤ pow10 (gain / (-10)) * 1000 := by
    have hy : (-3 : ℝ) ≤ gain / (-10) := by
      rw [le_div_iff_of_neg (by norm_num : (-10 : ℝ) < 0)]
      linarith
    have hmono : (10 : ℝ) ^ ((-3 : ℝ)) ≤ (10 : ℝ) ^ (gain / (-10)) :=
      (Real.rpow_le_rpow_left_iff (by norm_num)).mpr hy
    have hval : (10 : ℝ) ^ ((-3 : ℝ)) = 1 / 1000 := by
      rw [show ((-3 : ℝ)) = ((-3 : ℤ) : ℝ) from by norm_num,
        Real.rpow_intCast]
      norm_num
    rw [hval] at hmono
    unfold pow10
    linarith
  have hx2 : pow10 (gain / (-10)) * 1000 ≤ 100000 := by
    have hy : gain / (-10) ≤ 2 := by
      rw [div_le_iff_of_neg (by norm_num : (-10 : ℝ) < 0)]
      linarith
    have hmono : (10 : ℝ) ^ (gain / (-10)) ≤ (10 : ℝ) ^ ((2 : ℝ)) :=
      (Real.rpow_le_rpow_left_iff (by norm_num)).mpr hy
    have hval : (10 : ℝ) ^ ((2 : ℝ)) = 100 := by
      rw [show ((2 : ℝ)) = ((2 : ℕ) : ℝ) from by norm_num,
        Real.rpow_natCast]
      norm_num
    rw [hval] at hmono
    unfold pow10
    linarith
  have hgx : gain = (-10) * log10 (pow10 (gain / (-10)) * 1000 / 1000) := by
    rw [show pow10 (gain / (-10)) * 1000 / 1000 = pow10 (gain / (-10))
      from by ring]
    unfold pow10 log10
    rw [Real.logb_rpow (by norm_num) (by norm_num)]
    ring
  refine ⟨?_, ?_, ?_, ?_⟩
  · rw [scEncode_explicit, scDecode_fst, max_self]
    exact sc_gain_bound gain _ hx1 hx2 hgx
  · rw [scEncode_explicit, scDecode_snd, max_self]
    exact sc_peak_bound peak hpa
  · rw [scEncode_explicit]
    show 1 ≤ orOne (min (pyRoundR (pow10 (gain / (-10)) * 1000)) 65534) ∧
      orOne (min (pyRoundR (pow10 (gain / (-10)) * 1000)) 65534) ≤ 65534
    exact orOne_min_bounds _ (pyRoundR_nonneg _ (by linarith))
  · rw [scEncode_explicit]
    show 1 ≤ orOne (min (pyRoundR (pow10 (gain / (-10)) * 2500)) 65534) ∧
      orOne (min (pyRoundR (pow10 (gain / (-10)) * 2500)) 65534) ≤ 65534
    exact orOne_min_bounds _ (pyRoundR_nonneg _ (by linarith))

/-- Witness: the round-trip bounds at gain 0 and peak 1. -/
theorem C2_soundcheck_roundtrip_witness :
    |(scDecode (scEncode 0 1)).1 - 0| ≤ 2.01 ∧
    |(scDecode (scEncode 0 1)).2 - 1| ≤ 4 / 100000 := by
  have h := C2_soundcheck_roundtrip 0 1 (by norm_num) (by norm_num)
    (by norm_num) (by norm_num)
  exact ⟨h.1, h.2.1⟩

end Spec2Proof
